import Mathlib

/-!
# A shallow embedding of `solucion.py`

`solucion.py` parses first-order-logic formulas over single-letter atoms and
converts them to prenex conjunctive normal form (PCNF).  This file embeds the
program in Lean and proves properties of the embedding.

Conventions:
* Python strings are modelled as `List Char`.
* A Python variable that holds either a `Node` object or `None` is modelled by
  the inductive type `Node` below, whose `null` constructor stands for `None`.
* Python's mutate-and-return tree passes are modelled as pure functions that
  build the returned tree; the observable return values coincide.
* Functions whose Python recursion is not structural (they recurse on freshly
  built nodes or on string slices) are embedded with an explicit fuel
  parameter together with a proof that the chosen fuel always suffices, so the
  fuelled function satisfies the same recursion equations as the source.
-/

/-- The whitespace characters accepted by Python's `str.strip` and `\s`
(ASCII range; the repository's inputs are single-line ASCII strings). -/
def isPySpace (c : Char) : Bool :=
  c = ' ' || c = '\t' || c = '\n' || c = '\r' || c = '\x0b' || c = '\x0c'

/-- Python's `str.strip()`. -/
def trim (l : List Char) : List Char :=
  ((l.dropWhile isPySpace).reverse.dropWhile isPySpace).reverse

/-- Decimal digit character, as produced by Python's `str` of an integer. -/
def digitChar (d : Nat) : Char := Char.ofNat (48 + d)

/-- Fuelled helper for decimal rendering; `natToDec` always supplies enough
fuel (`decDigits_decVal` below shows the rendering is faithful). -/
def decDigits : Nat → Nat → List Char
  | 0, _ => []
  | fuel+1, n =>
    if n < 10 then [digitChar n] else decDigits fuel (n / 10) ++ [digitChar (n % 10)]

/-- Python's `str(n)` for a natural number `n`, as a list of characters. -/
def natToDec (n : Nat) : List Char := decDigits (n + 1) n

/-- Decimal decoding, used to prove `natToDec` injective. -/
def decVal (l : List Char) : Nat := l.foldl (fun a c => 10 * a + (c.toNat - 48)) 0

/-- A `Node` of the abstract syntax tree, or Python's `None` (the `null`
constructor).  The `value` holds the operator symbol or the atom letter;
`var` is the quantifier's bound variable (`None` elsewhere). -/
inductive Node where
  | null : Node
  | mk (value : List Char) (left : Node) (right : Node) (var : Option (List Char)) : Node
deriving DecidableEq, Repr

/-- `getattr(node, 'value', None)`. -/
def Node.valueO : Node → Option (List Char)
  | .null => none
  | .mk v _ _ _ => some v

/-- `node.left`, with `None` for `None` input (`getattr(node, 'left', None)`). -/
def Node.leftN : Node → Node
  | .null => .null
  | .mk _ l _ _ => l

/-- `node.right`, with `None` for `None` input (`getattr(node, 'right', None)`). -/
def Node.rightN : Node → Node
  | .null => .null
  | .mk _ _ r _ => r

/-- `getattr(node, 'variable', None)`. -/
def Node.varO : Node → Option (List Char)
  | .null => none
  | .mk _ _ _ x => x

/-- Number of `Node` objects in a tree. -/
def Node.size : Node → Nat
  | .null => 0
  | .mk _ l r _ => 1 + l.size + r.size

/-! ## The printer (`ast_to_string`) -/

/-- `ast_to_string`: renders a tree back to the formula string.  A `None`
argument renders as the empty string; a quantifier with a `None` variable
renders the f-string text `None`, as in Python. -/
def ast_to_string : Node → List Char
  | .null => []
  | .mk v l r x =>
    if l = .null ∧ r = .null then v
    else if v = ['A'] ∨ v = ['E'] then
      '(' :: (v ++ (match x with | some s => s | none => ['N','o','n','e']) ++
        ' ' :: ast_to_string r ++ [')'])
    else if v = ['-'] then
      '(' :: '-' :: ' ' :: (ast_to_string r ++ [')'])
    else
      '(' :: (ast_to_string l ++ ' ' :: (v ++ ' ' :: (ast_to_string r ++ [')'])))

/-! ## Propositional transformation passes -/

/-- `remove_biconditionals`: rewrites `(P <-> Q)` to `((P -> Q) & (Q -> P))`
bottom-up, recursing only into the body of a quantifier node. -/
def remove_biconditionals : Node → Node
  | .null => .null
  | .mk v l r x =>
    if v = ['A'] ∨ v = ['E'] then
      .mk v l (remove_biconditionals r) x
    else
      let l' := remove_biconditionals l
      let r' := remove_biconditionals r
      if v = ['<','-','>'] then
        .mk ['&'] (.mk ['-','>'] l' r' none) (.mk ['-','>'] r' l' none) none
      else .mk v l' r' x

/-- `remove_implications`: rewrites `(P -> Q)` to `((- P) v Q)` bottom-up,
recursing only into the body of a quantifier node. -/
def remove_implications : Node → Node
  | .null => .null
  | .mk v l r x =>
    if v = ['A'] ∨ v = ['E'] then
      .mk v l (remove_implications r) x
    else
      let l' := remove_implications l
      let r' := remove_implications r
      if v = ['-','>'] then
        .mk ['v'] (.mk ['-'] .null l' none) r' none
      else .mk v l' r' x

/-- Fuelled body of `push_negations_demorgan`; each recursive call of the
source strictly decreases `Node.size`, so fuel `n.size` suffices
(`pushNegF_congr` below). -/
def pushNegF : Nat → Node → Node
  | 0, n => n
  | fuel+1, n =>
    match n with
    | .null => .null
    | .mk v l r x =>
      if v = ['A'] ∨ v = ['E'] then .mk v l (pushNegF fuel r) x
      else if v = ['-'] ∧ r.valueO = some ['-'] then pushNegF fuel r.rightN
      else if v = ['-'] ∧ r.valueO = some ['&'] then
        .mk ['v'] (pushNegF fuel (.mk ['-'] .null r.leftN none))
                  (pushNegF fuel (.mk ['-'] .null r.rightN none)) none
      else if v = ['-'] ∧ r.valueO = some ['v'] then
        .mk ['&'] (pushNegF fuel (.mk ['-'] .null r.leftN none))
                  (pushNegF fuel (.mk ['-'] .null r.rightN none)) none
      else if v = ['-'] ∧ r.valueO = some ['A'] then
        .mk ['E'] .null (pushNegF fuel (.mk ['-'] .null r.rightN none)) r.varO
      else if v = ['-'] ∧ r.valueO = some ['E'] then
        .mk ['A'] .null (pushNegF fuel (.mk ['-'] .null r.rightN none)) r.varO
      else .mk v (pushNegF fuel l) (pushNegF fuel r) x

/-- `push_negations_demorgan`: pushes negations inward by double-negation
elimination, De Morgan's laws and quantifier duality, in one recursive pass. -/
def push_negations_demorgan (n : Node) : Node := pushNegF n.size n

/-- Termination measure for the rewrite recursion of
`distribute_or_over_and`: multiplicative at `v` nodes, additive elsewhere. -/
def dW : Node → Nat
  | .null => 2
  | .mk v l r _ => if v = ['v'] then dW l * dW r + 1 else dW l + dW r + 1

/-- Fuelled body of `distribute_or_over_and`; fuel `dW n` suffices
(`distF_congr` below). -/
def distF : Nat → Node → Node
  | 0, n => n
  | fuel+1, n =>
    match n with
    | .null => .null
    | .mk v l r x =>
      if v = ['A'] ∨ v = ['E'] then .mk v l (distF fuel r) x
      else
        let l' := distF fuel l
        let r' := distF fuel r
        if v = ['v'] then
          if r'.valueO = some ['&'] then
            .mk ['&'] (distF fuel (.mk ['v'] l' r'.leftN none))
                      (distF fuel (.mk ['v'] l' r'.rightN none)) none
          else if l'.valueO = some ['&'] then
            .mk ['&'] (distF fuel (.mk ['v'] l'.leftN r' none))
                      (distF fuel (.mk ['v'] l'.rightN r' none)) none
          else .mk v l' r' x
        else .mk v l' r' x

/-- `distribute_or_over_and`: distributes `v` over `&` bottom-up, recursing
into the freshly built disjunctions as the source does. -/
def distribute_or_over_and (n : Node) : Node := distF (dW n) n

/-- The structural-equality helper `nodes_equal` nested inside
`convert_matrix_to_cnf` (ignores `variable` on non-quantifier nodes). -/
def nodes_equal : Node → Node → Bool
  | .null, .null => true
  | .null, .mk _ _ _ _ => false
  | .mk _ _ _ _, .null => false
  | .mk v1 l1 r1 x1, .mk v2 l2 r2 x2 =>
    if v1 ≠ v2 then false
    else if (v1 = ['A'] ∨ v1 = ['E']) ∧ x1 ≠ x2 then false
    else nodes_equal l1 l2 && nodes_equal r1 r2

/-- The `for _ in range(max_iterations)` loop of `convert_matrix_to_cnf`:
distribute, then break when the result equals the previous tree.  When the
iteration budget runs out the current tree is returned as is (the source has
no error path there). -/
def cnfLoop : Nat → Node → Node
  | 0, node => node
  | k+1, node =>
    let next := distribute_or_over_and node
    if nodes_equal node next then next else cnfLoop k next

/-- `convert_matrix_to_cnf`: iterates distribution until convergence, with an
iteration cap of 100. -/
def convert_matrix_to_cnf (node : Node) : Node := cnfLoop 100 node

/-! ## Quantifier management -/

/-- The fresh-name search loop inside `standardize_variables`
(`while new_var in used: new_var = base + str(count); count += 1`).  Fuel
`used.length + 1` always suffices (`freshVar_not_mem` below); the fuel-out
fallback is never reached. -/
def freshLoop (base : List Char) (used : List (List Char)) : Nat → Nat → List Char
  | _, 0 => base
  | count, fuel+1 =>
    let cand := base ++ natToDec count
    if cand ∈ used then freshLoop base used (count+1) fuel else cand

/-- The complete fresh-name computation of `standardize_variables` for a
quantifier whose (possibly defaulted) name is `base`. -/
def freshVar (base : List Char) (used : List (List Char)) : List Char :=
  if base ∈ used then freshLoop base used 0 (used.length + 1) else base

/-- `rename_variable(node, old, new, bound)`.  The `bound` set is threaded
exactly as in the source (which computes it but never consults it). -/
def rename_variable : Node → List Char → List Char → List (List Char) → Node
  | .null, _, _, _ => .null
  | .mk v l r x, old, new, bound =>
    if v = ['A'] ∨ v = ['E'] then
      match x with
      | some s =>
        let new_right := rename_variable r old new (s :: bound)
        if s = old then .mk v .null new_right (some new)
        else .mk v .null new_right (some s)
      | none =>
        .mk v .null (rename_variable r old new bound) none
    else if l = .null ∧ r = .null ∧ v = old ∧ old.length = 1 then
      .mk new .null .null none
    else
      .mk v (rename_variable l old new bound) (rename_variable r old new bound) none

/-- `standardize_variables(node, used)`: walks top-down renaming any
quantifier whose name collides with `used`; both children of a binary node
receive the same `used` set, as in the source. -/
def standardizeAux : Node → List (List Char) → Node
  | .null, _ => .null
  | .mk v l r x, used =>
    if v = ['A'] ∨ v = ['E'] then
      match x with
      | some s =>
        let new_var := freshVar s used
        let right1 := standardizeAux r (new_var :: used)
        if new_var ≠ s then .mk v .null (rename_variable right1 s new_var [s]) (some new_var)
        else .mk v .null right1 (some new_var)
      | none =>
        let new_var := freshVar ['v'] used
        .mk v .null (standardizeAux r (new_var :: used)) (some new_var)
    else
      .mk v (standardizeAux l used) (standardizeAux r used) x

/-- `standardize_variables(node)` with the default `used=None` (empty set). -/
def standardize_variables (node : Node) : Node := standardizeAux node []

/-- `extract_quantifiers`: returns the `(kind, variable)` pairs in
outer-to-inner, left-to-right order together with the quantifier-free
matrix (`None` when the tree is exhausted). -/
def extract_quantifiers : Node → List (List Char × Option (List Char)) × Node
  | .null => ([], .null)
  | .mk v l r x =>
    if v = ['A'] ∨ v = ['E'] then
      let qm := extract_quantifiers r
      ((v, x) :: qm.1, qm.2)
    else if v = ['&'] ∨ v = ['v'] then
      let qm1 := extract_quantifiers l
      let qm2 := extract_quantifiers r
      (qm1.1 ++ qm2.1, .mk v qm1.2 qm2.2 none)
    else if v = ['-'] then
      let qm := extract_quantifiers r
      (qm.1, .mk ['-'] .null qm.2 none)
    else ([], .mk v l r x)

/-- `build_pcnf`: wraps the matrix with the quantifiers in reverse of
extraction order, so the first-extracted quantifier is outermost. -/
def build_pcnf (quantifiers : List (List Char × Option (List Char))) (matrix : Node) : Node :=
  quantifiers.reverse.foldl (fun node qv => .mk qv.1 .null node qv.2) matrix

/-- `convert_to_pcnf`: the full pipeline. -/
def convert_to_pcnf (root : Node) : Node :=
  let ast1 := remove_biconditionals root
  let ast2 := remove_implications ast1
  let ast3 := push_negations_demorgan ast2
  let ast4 := standardize_variables ast3
  let qm := extract_quantifiers ast4
  let matrix := if qm.2 = .null then .mk ['a'] .null .null none else qm.2
  build_pcnf qm.1 (convert_matrix_to_cnf matrix)

/-! ## The parser (`build_ast_from_expression`) -/

/-- Python exception values relevant to the parser: the source raises
`ValueError(msg)`; the specification instead expects `SyntaxError(msg)`,
modelled by the `synError` constructor (which the code never produces). -/
inductive PyExc where
  | valueError (msg : List Char)
  | synError (msg : List Char)
deriving DecidableEq, Repr

deriving instance DecidableEq for Except

/-- The `is_wrapper`/`level` scan over `expression[1:-1]` that decides
whether the outer parentheses are a single matching wrapper pair. -/
def parenScan : List Char → Int → Bool
  | [], level => level = 0
  | c :: rest, level =>
    let level2 := if c = '(' then level + 1 else if c = ')' then level - 1 else level
    if level2 < 0 then false else parenScan rest level2

/-- The regex `^([AE])([a-z])\s+(.+)$` applied to a stripped expression.
Backtracking subtleties of `\s+(.+)` cannot arise because the expression has
been stripped (it never ends in whitespace), and newlines are treated like
the other whitespace characters since inputs are single-line. -/
def matchQuant : List Char → Option (Char × Char × List Char)
  | q :: v2 :: rest =>
    if (q = 'A' ∨ q = 'E') ∧ ('a' ≤ v2 ∧ v2 ≤ 'z') ∧
        rest.takeWhile isPySpace ≠ [] ∧ rest.dropWhile isPySpace ≠ [] then
      some (q, v2, rest.dropWhile isPySpace)
    else none
  | _ => none

/-- Right-to-left scan for a top-level operator occurrence, mirroring
`for i in range(len(expression)-1, -1, -1)` with parenthesis `level`
tracking and `expression.startswith(op, i)`.  `revFront` is the reversed
not-yet-visited front of the string; `suffix` holds the already-visited
characters in forward order, so the forward string from the current position
is `c :: suffix`.  On a hit at position `i` the result is
`(expression[:i], op, expression[i+len(op):])`. -/
def rscan (ops : List (List Char)) :
    List Char → List Char → Int → Option (List Char × List Char × List Char)
  | [], _, _ => none
  | c :: rf, suffix, level =>
    let level2 := if c = ')' then level + 1 else if c = '(' then level - 1 else level
    if level2 = 0 then
      match ops.find? (fun op => op.isPrefixOf (c :: suffix)) with
      | some op => some (rf.reverse, op, (c :: suffix).drop op.length)
      | none => rscan ops rf (c :: suffix) level2
    else rscan ops rf (c :: suffix) level2

/-- `operators_by_precedence = [['<->'], ['->'], ['v'], ['&']]`. -/
def opClasses : List (List (List Char)) :=
  [[['<','-','>']], [['-','>']], [['v']], [['&']]]

/-- The loop `for ops in operators_by_precedence`, scanning each precedence
class right-to-left and splitting at the first hit. -/
def findTopOp : List (List (List Char)) → List Char →
    Option (List Char × List Char × List Char)
  | [], _ => none
  | ops :: rest, s =>
    match rscan ops s.reverse [] 0 with
    | some res => some res
    | none => findTopOp rest s

/-- The message of the `ValueError` raised at the end of
`build_ast_from_expression`. -/
def invalidMsg (e : List Char) : List Char :=
  ('I' :: 'n' :: 'v' :: 'a' :: 'l' :: 'i' :: 'd' :: ' ' :: 'e' :: 'x' :: 'p' ::
   'r' :: 'e' :: 's' :: 's' :: 'i' :: 'o' :: 'n' :: ':' :: ' ' :: []) ++ e

/-- Fuelled body of `build_ast_from_expression`; every recursive call is on a
strictly shorter string, so fuel `length + 1` suffices (`parseF_congr`
below). -/
def parseF : Nat → List Char → Except PyExc Node
  | 0, _ => .error (.valueError [])
  | fuel+1, expression0 =>
    let e := trim expression0
    if e.head? = some '(' ∧ e.getLast? = some ')' ∧ parenScan ((e.drop 1).dropLast) 0 then
      parseF fuel ((e.drop 1).dropLast)
    else
      match matchQuant e with
      | some qvb => do
          let b ← parseF fuel qvb.2.2
          pure (.mk [qvb.1] .null b (some [qvb.2.1]))
      | none =>
        match findTopOp opClasses e with
        | some lor => do
            let l ← parseF fuel lor.1
            let r ← parseF fuel lor.2.2
            pure (.mk lor.2.1 l r none)
        | none =>
          if e.take 2 = ['-', ' '] then do
            let r ← parseF fuel (e.drop 2)
            pure (.mk ['-'] .null r none)
          else
            match e with
            | [c] =>
              if 'a' ≤ c ∧ c ≤ 'z' then pure (.mk [c] .null .null none)
              else .error (.valueError (invalidMsg e))
            | _ => .error (.valueError (invalidMsg e))

/-- `build_ast_from_expression`. -/
def build_ast_from_expression (expression : List Char) : Except PyExc Node :=
  parseF (expression.length + 1) expression

/-- One step of the parser with an abstract recursive call, for reasoning
about `parseF` at any positive fuel. -/
def parseStep (rec : List Char → Except PyExc Node) (expression0 : List Char) :
    Except PyExc Node :=
  let e := trim expression0
  if e.head? = some '(' ∧ e.getLast? = some ')' ∧ parenScan ((e.drop 1).dropLast) 0 then
    rec ((e.drop 1).dropLast)
  else
    match matchQuant e with
    | some qvb => do
        let b ← rec qvb.2.2
        pure (.mk [qvb.1] .null b (some [qvb.2.1]))
    | none =>
      match findTopOp opClasses e with
      | some lor => do
          let l ← rec lor.1
          let r ← rec lor.2.2
          pure (.mk lor.2.1 l r none)
      | none =>
        if e.take 2 = ['-', ' '] then do
          let r ← rec (e.drop 2)
          pure (.mk ['-'] .null r none)
        else
          match e with
          | [c] =>
            if 'a' ≤ c ∧ c ≤ 'z' then pure (.mk [c] .null .null none)
            else .error (.valueError (invalidMsg e))
          | _ => .error (.valueError (invalidMsg e))

/-! ## Predicates over trees -/

/-- `a ≤ c ≤ z` (the regex class `[a-z]`). -/
def isLowerAZ (c : Char) : Bool := decide ('a' ≤ c) && decide (c ≤ 'z')

/-- No subtree carries the value `<->`. -/
def NoIffB : Node → Bool
  | .null => true
  | .mk v l r _ => decide (v ≠ ['<','-','>']) && NoIffB l && NoIffB r

/-- No subtree carries the value `->`. -/
def NoImpB : Node → Bool
  | .null => true
  | .mk v l r _ => decide (v ≠ ['-','>']) && NoImpB l && NoImpB r

/-- No subtree carries a quantifier value `A` or `E`. -/
def NoQuantB : Node → Bool
  | .null => true
  | .mk v l r _ => decide (v ≠ ['A'] ∧ v ≠ ['E']) && NoQuantB l && NoQuantB r

/-- The CNF matrix condition: no `v` node has an `&` node as an immediate
child, anywhere in the tree. -/
def NoVAB : Node → Bool
  | .null => true
  | .mk v l r _ =>
    (if v = ['v'] then decide (l.valueO ≠ some ['&'] ∧ r.valueO ≠ some ['&']) else true)
      && NoVAB l && NoVAB r

/-- Prenex shape: quantifier nodes form a chain from the root (each
quantifier has no left child and its body is the next chain element), and
the first non-quantifier node starts a quantifier-free subtree whose `v`
nodes never have an `&` child. -/
def IsPrenexB : Node → Bool
  | .null => false
  | .mk v l r x =>
    if v = ['A'] ∨ v = ['E'] then decide (l = .null) && IsPrenexB r
    else NoQuantB (.mk v l r x) && NoVAB (.mk v l r x)

/-- No residual pushable negation: no subtree is a negation whose operand is
a negation, conjunction, disjunction or quantifier. -/
def NoBadNegB : Node → Bool
  | .null => true
  | .mk v l r _ =>
    (if v = ['-'] then
      decide (r.valueO ≠ some ['-'] ∧ r.valueO ≠ some ['&'] ∧ r.valueO ≠ some ['v'] ∧
              r.valueO ≠ some ['A'] ∧ r.valueO ≠ some ['E'])
     else true) && NoBadNegB l && NoBadNegB r

/-- Every node that has a child carries one of the connective values
`&`, `v`, `-`, `A`, `E` (the hypothesis of the negation-pushing claim). -/
def ConnOkB : Node → Bool
  | .null => true
  | .mk v l r _ =>
    (if l = .null ∧ r = .null then true
     else decide (v = ['&'] ∨ v = ['v'] ∨ v = ['-'] ∨ v = ['A'] ∨ v = ['E']))
      && ConnOkB l && ConnOkB r

/-- Well-formed trees in the sense of the specification's data model:
atoms are childless single lowercase letters, negations have exactly a right
child, binary connectives have both children, quantifiers bind a single
lowercase letter and have exactly a body, and only quantifiers carry a
`variable`.  A childless `v` node is the atom `v`. -/
def WellFormedB : Node → Bool
  | .null => false
  | .mk v l r x =>
    if v = ['A'] ∨ v = ['E'] then
      (match x with | some [c] => isLowerAZ c | _ => false)
        && decide (l = .null) && WellFormedB r
    else if v = ['&'] ∨ v = ['-','>'] ∨ v = ['<','-','>'] then
      decide (x = none) && WellFormedB l && WellFormedB r
    else if v = ['v'] then
      decide (x = none) &&
        ((decide (l = .null) && decide (r = .null)) || (WellFormedB l && WellFormedB r))
    else if v = ['-'] then
      decide (x = none) && decide (l = .null) && WellFormedB r
    else
      decide (x = none) && decide (l = .null) && decide (r = .null) &&
        (match v with | [c] => isLowerAZ c | _ => false)

/-- No atom (childless node) is the letter `v` (such an atom collides with
the disjunction operator in the concrete syntax). -/
def NoAtomVB : Node → Bool
  | .null => true
  | .mk v l r _ =>
    (if l = .null ∧ r = .null then decide (v ≠ ['v']) else true) && NoAtomVB l && NoAtomVB r

/-- A structural invariant preserved by every pass of the pipeline: child
shapes are as the connective value dictates (`v` and `-` additionally admit
the degenerate leaf shapes that negating an atom named `v` produces), and a
childless node never carries a quantifier value. -/
def TameB : Node → Bool
  | .null => false
  | .mk v l r _ =>
    if v = ['A'] ∨ v = ['E'] then decide (l = .null) && TameB r
    else if v = ['&'] ∨ v = ['-','>'] ∨ v = ['<','-','>'] then TameB l && TameB r
    else if v = ['v'] then
      (TameB l && TameB r) || (decide (l = .null) && decide (r = .null))
    else if v = ['-'] then
      decide (l = .null) && (decide (r = .null) || TameB r)
    else decide (l = .null) && decide (r = .null)

/-- The bound variables of all quantifier-valued nodes, in preorder. -/
def quantVars : Node → List (List Char)
  | .null => []
  | .mk v l r x =>
    if v = ['A'] ∨ v = ['E'] then
      (match x with | some s => [s] | none => []) ++ quantVars l ++ quantVars r
    else quantVars l ++ quantVars r

/-- No quantifier's bound variable recurs as the bound variable of a
quantifier in its own subtree (uniqueness along every root-to-leaf path). -/
def pathOkB : Node → Bool
  | .null => true
  | .mk v l r x =>
    (if v = ['A'] ∨ v = ['E'] then
      (match x with | some s => decide (s ∉ quantVars l ∧ s ∉ quantVars r) | none => true)
     else true) && pathOkB l && pathOkB r

/-- `True` exactly on `.error (.synError _)` results: the parser outcome the
specification prescribes for malformed input but the code never produces. -/
def raisesSynErr : Except PyExc Node → Bool
  | .error (.synError _) => true
  | _ => false

/-! ## Auxiliary definitions for the statements and proofs -/

/-- Shorthand for an atom node. -/
def atomN (c : Char) : Node := .mk [c] .null .null none

/-- Shorthand for a binary-connective node. -/
def binN (v : List Char) (l r : Node) : Node := .mk v l r none

/-- Shorthand for a negation node. -/
def negN (b : Node) : Node := .mk ['-'] .null b none

/-- Shorthand for a quantifier node. -/
def quantN (q x : Char) (b : Node) : Node := .mk [q] .null b (some [x])

/-- Unconditional renaming: replace every childless occurrence of `old` (when
`old` is a single character) and rebind every quantifier on `old`, ignoring
any shadowing; non-quantifier nodes lose their `variable` field, exactly as
`rename_variable` rebuilds them. -/
def renameEverywhere : Node → List Char → List Char → Node
  | .null, _, _ => .null
  | .mk v l r x, old, new =>
    if v = ['A'] ∨ v = ['E'] then
      match x with
      | some s =>
        let new_right := renameEverywhere r old new
        if s = old then .mk v .null new_right (some new)
        else .mk v .null new_right (some s)
      | none =>
        .mk v .null (renameEverywhere r old new) none
    else if l = .null ∧ r = .null ∧ v = old ∧ old.length = 1 then
      .mk new .null .null none
    else
      .mk v (renameEverywhere l old new) (renameEverywhere r old new) none

/-- Parenthesis balance (opens minus closes) of a character list. -/
def bal (l : List Char) : Int := (l.count '(' : Int) - (l.count ')' : Int)

/-- Balance contribution of a single character. -/
def charBal (c : Char) : Int := if c = '(' then 1 else if c = ')' then -1 else 0

/-- Every prefix has nonnegative balance. -/
def balPrefixOk (l : List Char) : Prop := ∀ p q, l = p ++ q → 0 ≤ bal p

/-- The shape of a rendered well-formed tree without `v` atoms: either one
lowercase non-`v` letter, or a balanced parenthesized package whose proper
prefixes all stay strictly inside the outer parentheses. -/
def RenderShape (s : List Char) : Prop :=
  (∃ c, s = [c] ∧ isLowerAZ c = true ∧ c ≠ 'v') ∨
  (∃ inner, s = '(' :: inner ++ [')'] ∧ bal inner = 0 ∧ balPrefixOk inner)

/-- Quantifier-valued nodes have no left child. -/
def QLeftNullB : Node → Bool
  | .null => true
  | .mk v l r _ =>
    (if v = ['A'] ∨ v = ['E'] then decide (l = .null) else true) && QLeftNullB l && QLeftNullB r

/-- After biconditional elimination: every node that has a child carries one
of the values `&`, `v`, `-`, `->`, `A`, `E` (everything except `<->`). -/
def NoIffConnB : Node → Bool
  | .null => true
  | .mk v l r _ =>
    (if l = .null ∧ r = .null then true
     else decide (v = ['&'] ∨ v = ['v'] ∨ v = ['-'] ∨ v = ['-','>'] ∨ v = ['A'] ∨ v = ['E']))
      && NoIffConnB l && NoIffConnB r

/-! ## Basic lemmas about the string and numeric helpers -/

theorem dropWhile_length_le (p : Char → Bool) (l : List Char) :
    (l.dropWhile p).length ≤ l.length := by
  induction l with
  | nil => simp
  | cons a as ih =>
    rw [List.dropWhile_cons]
    split <;> simp <;> omega

theorem trim_length_le (l : List Char) : (trim l).length ≤ l.length := by
  unfold trim
  calc ((l.dropWhile isPySpace).reverse.dropWhile isPySpace).reverse.length
      = ((l.dropWhile isPySpace).reverse.dropWhile isPySpace).length := by
        rw [List.length_reverse]
    _ ≤ (l.dropWhile isPySpace).reverse.length := dropWhile_length_le _ _
    _ = (l.dropWhile isPySpace).length := by rw [List.length_reverse]
    _ ≤ l.length := dropWhile_length_le _ _

theorem trim_eq_self (l : List Char) (h1 : ∀ c, l.head? = some c → isPySpace c = false)
    (h2 : ∀ c, l.getLast? = some c → isPySpace c = false) : trim l = l := by
  unfold trim
  have hd : l.dropWhile isPySpace = l := by
    cases l with
    | nil => rfl
    | cons a as =>
      rw [List.dropWhile_cons_of_neg]
      simp only [List.head?_cons, Option.some.injEq] at h1
      simp [h1 a rfl]
  rw [hd]
  have hd2 : l.reverse.dropWhile isPySpace = l.reverse := by
    cases hr : l.reverse with
    | nil => rfl
    | cons a as =>
      rw [List.dropWhile_cons_of_neg]
      have : l.getLast? = some a := by
        rw [← List.head?_reverse, hr]; rfl
      simp [h2 a this]
  rw [hd2, List.reverse_reverse]

theorem digitChar_toNat (d : Nat) (h : d < 10) : (digitChar d).toNat = 48 + d := by
  interval_cases d <;> decide

theorem decVal_concat (xs : List Char) (c : Char) :
    decVal (xs ++ [c]) = 10 * decVal xs + (c.toNat - 48) := by
  unfold decVal
  rw [List.foldl_append]
  rfl

theorem decVal_singleton (c : Char) : decVal [c] = c.toNat - 48 := by
  unfold decVal; simp

theorem decDigits_decVal : ∀ fuel n, n < fuel → decVal (decDigits fuel n) = n := by
  intro fuel
  induction fuel with
  | zero => intro n h; omega
  | succ f ih =>
    intro n h
    unfold decDigits
    by_cases h10 : n < 10
    · simp only [h10, if_true]
      rw [decVal_singleton, digitChar_toNat n h10]
      omega
    · simp only [h10, if_false]
      rw [decVal_concat, digitChar_toNat (n % 10) (Nat.mod_lt _ (by omega))]
      have hdiv : n / 10 < f := by
        have : n / 10 < n := Nat.div_lt_self (by omega) (by omega)
        omega
      rw [ih (n / 10) hdiv]
      omega

theorem natToDec_decVal (n : Nat) : decVal (natToDec n) = n :=
  decDigits_decVal (n + 1) n (Nat.lt_succ_self n)

theorem natToDec_injective : Function.Injective natToDec := by
  intro a b h
  have := natToDec_decVal a
  rw [h, natToDec_decVal] at this
  omega

theorem natToDec_getLast? (n : Nat) :
    ∃ d, d < 10 ∧ (natToDec n).getLast? = some (digitChar d) := by
  unfold natToDec decDigits
  by_cases h10 : n < 10
  · exact ⟨n, h10, by simp [h10]⟩
  · exact ⟨n % 10, Nat.mod_lt _ (by omega), by simp [h10]⟩

theorem natToDec_ne_nil (n : Nat) : natToDec n ≠ [] := by
  unfold natToDec decDigits
  by_cases h10 : n < 10 <;> simp [h10]

/-! ## Fuel sufficiency for `push_negations_demorgan` -/

theorem size_mk (v : List Char) (l r : Node) (x : Option (List Char)) :
    (Node.mk v l r x).size = 1 + l.size + r.size := rfl

theorem size_rightN_le (n : Node) : n.rightN.size ≤ n.size := by
  cases n <;> simp [Node.rightN, Node.size] <;> omega

theorem size_leftN_le (n : Node) : n.leftN.size ≤ n.size := by
  cases n <;> simp [Node.leftN, Node.size] <;> omega

theorem pushNegF_congr :
    ∀ (k : Nat) (n : Node), n.size ≤ k → ∀ f g, n.size ≤ f → n.size ≤ g →
      pushNegF f n = pushNegF g n := by
  intro k
  induction k with
  | zero =>
    intro n hn f g _ _
    cases n with
    | null => cases f <;> cases g <;> rfl
    | mk v l r x => rw [size_mk] at hn; omega
  | succ k ih =>
    intro n hn f g hf hg
    cases n with
    | null => cases f <;> cases g <;> rfl
    | mk v l r x =>
      rw [size_mk] at hn hf hg
      cases f with
      | zero => omega
      | succ f' =>
        cases g with
        | zero => omega
        | succ g' =>
          have hrec : ∀ m : Node, m.size ≤ l.size + r.size →
              pushNegF f' m = pushNegF g' m := by
            intro m hm
            exact ih m (by omega) f' g' (by omega) (by omega)
          cases r with
          | null =>
            simp only [pushNegF, Node.valueO, Node.rightN, Node.leftN]
            split_ifs <;>
              first
                | rfl
                | (apply hrec; simp only [Node.size]; omega)
                | (congr 1 <;> (apply hrec; simp only [Node.size]; omega))
                | simp_all
          | mk rv rl rr rx =>
            have hrr : rr.size ≤ l.size + (Node.mk rv rl rr rx).size := by
              rw [size_mk]; omega
            simp only [pushNegF, Node.valueO, Node.rightN, Node.leftN]
            split_ifs <;>
              first
                | rfl
                | (apply hrec; simp only [Node.size]; omega)
                | (congr 1 <;> (apply hrec; simp only [Node.size]; omega))

theorem push_eq_null : push_negations_demorgan .null = .null := rfl

theorem pushNegF_size (n : Node) (f : Nat) (hf : n.size ≤ f) :
    pushNegF f n = push_negations_demorgan n :=
  pushNegF_congr n.size n le_rfl f n.size hf le_rfl

theorem push_eq_quant (v : List Char) (l r : Node) (x : Option (List Char))
    (h : v = ['A'] ∨ v = ['E']) :
    push_negations_demorgan (.mk v l r x) = .mk v l (push_negations_demorgan r) x := by
  show pushNegF (1 + l.size + r.size) _ = _
  have he : 1 + l.size + r.size = (l.size + r.size) + 1 := by omega
  rw [he]
  simp only [pushNegF, if_pos h]
  rw [pushNegF_size r _ (by omega)]

theorem size_split_of_valueO (r : Node) (w : List Char) (h : r.valueO = some w) :
    r.leftN.size + r.rightN.size + 1 = r.size := by
  cases r with
  | null => simp [Node.valueO] at h
  | mk rv rl rr rx => simp [Node.leftN, Node.rightN, Node.size]; omega

theorem push_eq_negneg (l r : Node) (x : Option (List Char))
    (h : r.valueO = some ['-']) :
    push_negations_demorgan (.mk ['-'] l r x) = push_negations_demorgan r.rightN := by
  show pushNegF (1 + l.size + r.size) _ = _
  rw [(by omega : 1 + l.size + r.size = (l.size + r.size) + 1)]
  simp only [pushNegF]
  simp [h]
  exact pushNegF_size r.rightN _ (by have := size_rightN_le r; omega)

theorem push_eq_negand (l r : Node) (x : Option (List Char))
    (h : r.valueO = some ['&']) :
    push_negations_demorgan (.mk ['-'] l r x) =
      .mk ['v'] (push_negations_demorgan (.mk ['-'] .null r.leftN none))
                (push_negations_demorgan (.mk ['-'] .null r.rightN none)) none := by
  have hs := size_split_of_valueO r _ h
  show pushNegF (1 + l.size + r.size) _ = _
  rw [(by omega : 1 + l.size + r.size = (l.size + r.size) + 1)]
  simp only [pushNegF]
  simp [h]
  rw [pushNegF_size (.mk ['-'] .null r.leftN none) _ (by simp only [Node.size]; omega),
    pushNegF_size (.mk ['-'] .null r.rightN none) _ (by simp only [Node.size]; omega)]
  exact ⟨rfl, rfl⟩

theorem push_eq_negor (l r : Node) (x : Option (List Char))
    (h : r.valueO = some ['v']) :
    push_negations_demorgan (.mk ['-'] l r x) =
      .mk ['&'] (push_negations_demorgan (.mk ['-'] .null r.leftN none))
                (push_negations_demorgan (.mk ['-'] .null r.rightN none)) none := by
  have hs := size_split_of_valueO r _ h
  show pushNegF (1 + l.size + r.size) _ = _
  rw [(by omega : 1 + l.size + r.size = (l.size + r.size) + 1)]
  simp only [pushNegF]
  simp [h]
  rw [pushNegF_size (.mk ['-'] .null r.leftN none) _ (by simp only [Node.size]; omega),
    pushNegF_size (.mk ['-'] .null r.rightN none) _ (by simp only [Node.size]; omega)]
  exact ⟨rfl, rfl⟩

theorem push_eq_negall (l r : Node) (x : Option (List Char))
    (h : r.valueO = some ['A']) :
    push_negations_demorgan (.mk ['-'] l r x) =
      .mk ['E'] .null (push_negations_demorgan (.mk ['-'] .null r.rightN none)) r.varO := by
  have hs := size_split_of_valueO r _ h
  show pushNegF (1 + l.size + r.size) _ = _
  rw [(by omega : 1 + l.size + r.size = (l.size + r.size) + 1)]
  simp only [pushNegF]
  simp [h]
  rw [pushNegF_size (.mk ['-'] .null r.rightN none) _ (by simp only [Node.size]; omega)]

theorem push_eq_negex (l r : Node) (x : Option (List Char))
    (h : r.valueO = some ['E']) :
    push_negations_demorgan (.mk ['-'] l r x) =
      .mk ['A'] .null (push_negations_demorgan (.mk ['-'] .null r.rightN none)) r.varO := by
  have hs := size_split_of_valueO r _ h
  show pushNegF (1 + l.size + r.size) _ = _
  rw [(by omega : 1 + l.size + r.size = (l.size + r.size) + 1)]
  simp only [pushNegF]
  simp [h]
  rw [pushNegF_size (.mk ['-'] .null r.rightN none) _ (by simp only [Node.size]; omega)]

theorem push_eq_generic (v : List Char) (l r : Node) (x : Option (List Char))
    (h1 : ¬(v = ['A'] ∨ v = ['E']))
    (h2 : ¬(v = ['-'] ∧ r.valueO = some ['-']))
    (h3 : ¬(v = ['-'] ∧ r.valueO = some ['&']))
    (h4 : ¬(v = ['-'] ∧ r.valueO = some ['v']))
    (h5 : ¬(v = ['-'] ∧ r.valueO = some ['A']))
    (h6 : ¬(v = ['-'] ∧ r.valueO = some ['E'])) :
    push_negations_demorgan (.mk v l r x) =
      .mk v (push_negations_demorgan l) (push_negations_demorgan r) x := by
  show pushNegF (1 + l.size + r.size) _ = _
  rw [(by omega : 1 + l.size + r.size = (l.size + r.size) + 1)]
  simp only [pushNegF]
  rw [if_neg h1, if_neg h2, if_neg h3, if_neg h4, if_neg h5, if_neg h6]
  rw [pushNegF_size l _ (by omega), pushNegF_size r _ (by omega)]

theorem QLeftNull_leftN (r : Node) (h : QLeftNullB r = true) : QLeftNullB r.leftN = true := by
  cases r with
  | null => simp [Node.leftN, QLeftNullB]
  | mk rv rl rr rx =>
    simp only [QLeftNullB, Bool.and_eq_true] at h
    exact h.1.2

theorem QLeftNull_rightN (r : Node) (h : QLeftNullB r = true) : QLeftNullB r.rightN = true := by
  cases r with
  | null => simp [Node.rightN, QLeftNullB]
  | mk rv rl rr rx =>
    simp only [QLeftNullB, Bool.and_eq_true] at h
    exact h.2

theorem push_valueO_generic (w : List Char) (rl rr : Node) (rx : Option (List Char))
    (hw1 : w ≠ ['A']) (hw2 : w ≠ ['E']) (hw3 : w ≠ ['-']) :
    (push_negations_demorgan (.mk w rl rr rx)).valueO = some w := by
  rw [push_eq_generic w rl rr rx (by tauto) (by tauto) (by tauto) (by tauto) (by tauto)
    (by tauto)]
  rfl

theorem push_noBadNeg : ∀ (k : Nat) (n : Node), n.size ≤ k → QLeftNullB n = true →
    NoBadNegB (push_negations_demorgan n) = true := by
  intro k
  induction k with
  | zero =>
    intro n hn _
    cases n with
    | null => simp [push_eq_null, NoBadNegB]
    | mk v l r x => rw [size_mk] at hn; omega
  | succ k ih =>
    intro n hn hq
    cases n with
    | null => simp [push_eq_null, NoBadNegB]
    | mk v l r x =>
      rw [size_mk] at hn
      simp only [QLeftNullB, Bool.and_eq_true] at hq
      obtain ⟨⟨hq0, hql⟩, hqr⟩ := hq
      by_cases hv : v = ['A'] ∨ v = ['E']
      · have hlnull : l = .null := by
          rw [if_pos hv] at hq0; exact of_decide_eq_true hq0
        subst hlnull
        rw [push_eq_quant v .null r x hv]
        rcases hv with rfl | rfl <;>
          simp only [NoBadNegB, Bool.and_eq_true] <;>
          exact ⟨⟨by rw [if_neg (by decide)], by decide⟩,
            ih r (by simp only [Node.size] at hn; omega) hqr⟩
      · by_cases hneg : v = ['-']
        · subst hneg
          cases r with
          | null =>
            rw [push_eq_generic ['-'] l .null x hv (by simp [Node.valueO]) (by simp [Node.valueO])
              (by simp [Node.valueO]) (by simp [Node.valueO]) (by simp [Node.valueO])]
            simp only [NoBadNegB, Bool.and_eq_true, push_eq_null]
            refine ⟨⟨?_, ih l (by omega) hql⟩, by decide⟩
            simp [Node.valueO]
          | mk w rl rr rx =>
            have hsz : (Node.mk w rl rr rx).size = 1 + rl.size + rr.size := rfl
            rw [hsz] at hn
            simp only [QLeftNullB, Bool.and_eq_true] at hqr
            obtain ⟨⟨hr0, hrl⟩, hrr⟩ := hqr
            by_cases hw1 : w = ['-']
            · subst hw1
              rw [push_eq_negneg l _ x (by simp [Node.valueO])]
              exact ih (Node.mk ['-'] rl rr rx).rightN (by simp [Node.rightN]; omega)
                (by simpa [Node.rightN] using hrr)
            · by_cases hw2 : w = ['&']
              · subst hw2
                rw [push_eq_negand l _ x (by simp [Node.valueO])]
                simp only [NoBadNegB, Bool.and_eq_true, Node.leftN, Node.rightN]
                refine ⟨⟨by rw [if_neg (by decide)], ?_⟩, ?_⟩
                · exact ih (.mk ['-'] .null rl none) (by simp only [Node.size]; omega)
                    (by simp [QLeftNullB, hrl])
                · exact ih (.mk ['-'] .null rr none) (by simp only [Node.size]; omega)
                    (by simp [QLeftNullB, hrr])
              · by_cases hw3 : w = ['v']
                · subst hw3
                  rw [push_eq_negor l _ x (by simp [Node.valueO])]
                  simp only [NoBadNegB, Bool.and_eq_true, Node.leftN, Node.rightN]
                  refine ⟨⟨by rw [if_neg (by decide)], ?_⟩, ?_⟩
                  · exact ih (.mk ['-'] .null rl none) (by simp only [Node.size]; omega)
                      (by simp [QLeftNullB, hrl])
                  · exact ih (.mk ['-'] .null rr none) (by simp only [Node.size]; omega)
                      (by simp [QLeftNullB, hrr])
                · by_cases hw4 : w = ['A']
                  · subst hw4
                    rw [push_eq_negall l _ x (by simp [Node.valueO])]
                    simp only [NoBadNegB, Bool.and_eq_true, Node.rightN, Node.varO]
                    refine ⟨⟨by rw [if_neg (by decide)], by decide⟩, ?_⟩
                    exact ih (.mk ['-'] .null rr none) (by simp only [Node.size]; omega)
                      (by simp [QLeftNullB, hrr])
                  · by_cases hw5 : w = ['E']
                    · subst hw5
                      rw [push_eq_negex l _ x (by simp [Node.valueO])]
                      simp only [NoBadNegB, Bool.and_eq_true, Node.rightN, Node.varO]
                      refine ⟨⟨by rw [if_neg (by decide)], by decide⟩, ?_⟩
                      exact ih (.mk ['-'] .null rr none) (by simp only [Node.size]; omega)
                        (by simp [QLeftNullB, hrr])
                    · rw [push_eq_generic ['-'] l _ x hv
                        (by simp [Node.valueO]; tauto) (by simp [Node.valueO]; tauto)
                        (by simp [Node.valueO]; tauto) (by simp [Node.valueO]; tauto)
                        (by simp [Node.valueO]; tauto)]
                      simp only [NoBadNegB, Bool.and_eq_true]
                      refine ⟨⟨?_, ih l (by omega) hql⟩, ?_⟩
                      · rw [push_valueO_generic w rl rr rx hw4 hw5 hw1]
                        simp only [if_true]
                        exact decide_eq_true (by simp [hw1, hw2, hw3, hw4, hw5])
                      · exact ih (.mk w rl rr rx) (by rw [hsz]; omega)
                          (by simp only [QLeftNullB, Bool.and_eq_true]
                              exact ⟨⟨hr0, hrl⟩, hrr⟩)
        · rw [push_eq_generic v l r x hv (by tauto) (by tauto) (by tauto) (by tauto) (by tauto)]
          simp only [NoBadNegB, Bool.and_eq_true]
          refine ⟨⟨by rw [if_neg hneg], ih l (by omega) hql⟩, ih r (by omega) hqr⟩

theorem wf_parts (v : List Char) (l r : Node) (x : Option (List Char))
    (h : WellFormedB (.mk v l r x) = true) :
    (l = .null ∨ WellFormedB l = true) ∧ (r = .null ∨ WellFormedB r = true) ∧
    ((v = ['A'] ∨ v = ['E']) → l = .null) := by
  simp only [WellFormedB] at h
  split_ifs at h with h1 h2 h3 h4
  · simp only [Bool.and_eq_true] at h
    exact ⟨Or.inl (of_decide_eq_true h.1.2), Or.inr h.2, fun _ => of_decide_eq_true h.1.2⟩
  · simp only [Bool.and_eq_true] at h
    exact ⟨Or.inr h.1.2, Or.inr h.2, fun hq => absurd hq h1⟩
  · simp only [Bool.and_eq_true, Bool.or_eq_true] at h
    rcases h.2 with ⟨hl, hr⟩ | ⟨hl, hr⟩
    · exact ⟨Or.inl (of_decide_eq_true hl), Or.inl (of_decide_eq_true hr),
        fun hq => absurd hq h1⟩
    · exact ⟨Or.inr hl, Or.inr hr, fun hq => absurd hq h1⟩
  · simp only [Bool.and_eq_true] at h
    exact ⟨Or.inl (of_decide_eq_true h.1.2), Or.inr h.2, fun hq => absurd hq h1⟩
  · simp only [Bool.and_eq_true] at h
    exact ⟨Or.inl (of_decide_eq_true h.1.1.2), Or.inl (of_decide_eq_true h.1.2),
      fun hq => absurd hq h1⟩

theorem wf_QLeftNull : ∀ n : Node, WellFormedB n = true → QLeftNullB n = true := by
  intro n
  induction n with
  | null => intro h; simp [WellFormedB] at h
  | mk v l r x ihl ihr =>
    intro h
    obtain ⟨hl, hr, hq⟩ := wf_parts v l r x h
    simp only [QLeftNullB, Bool.and_eq_true]
    refine ⟨⟨?_, ?_⟩, ?_⟩
    · split_ifs with h1
      · simp [hq h1]
      · rfl
    · rcases hl with rfl | hl
      · simp [QLeftNullB]
      · exact ihl hl
    · rcases hr with rfl | hr
      · simp [QLeftNullB]
      · exact ihr hr

/-- C4: for every well-formed tree whose only connectives are `&`, `v`, `-`
and quantifiers, the tree returned by `push_negations_demorgan` contains no
subtree of the form `(- (- _))`, `(- (_ & _))`, `(- (_ v _))`, `(- (A _ _))`
or `(- (E _ _))`; the single recursive pass achieves this. -/
theorem C4_no_residual_negation (t : Node) (hwf : WellFormedB t = true)
    (_hconn : ConnOkB t = true) :
    NoBadNegB (push_negations_demorgan t) = true :=
  push_noBadNeg t.size t le_rfl (wf_QLeftNull t hwf)

/-- Witness for C4 at the concrete input `(- (a & b))`. -/
theorem C4_witness :
    (WellFormedB (negN (binN ['&'] (atomN 'a') (atomN 'b'))) = true ∧
     ConnOkB (negN (binN ['&'] (atomN 'a') (atomN 'b'))) = true) ∧
    NoBadNegB (push_negations_demorgan (negN (binN ['&'] (atomN 'a') (atomN 'b')))) = true :=
  ⟨⟨by decide, by decide⟩, C4_no_residual_negation _ (by decide) (by decide)⟩

/-- C3: on the tree of `((Az p) v (Ew q))`, `extract_quantifiers` returns the
quantifier list `[(A,z), (E,w)]` with matrix `(p v q)`, `build_pcnf` wraps
the matrix in reverse of extraction order, and the full pipeline returns the
tree of `(Az (Ew (p v q)))`. -/
theorem C3_extract_and_rebuild :
    extract_quantifiers (binN ['v'] (quantN 'A' 'z' (atomN 'p')) (quantN 'E' 'w' (atomN 'q'))) =
      ([(['A'], some ['z']), (['E'], some ['w'])], binN ['v'] (atomN 'p') (atomN 'q')) ∧
    build_pcnf [(['A'], some ['z']), (['E'], some ['w'])] (binN ['v'] (atomN 'p') (atomN 'q')) =
      quantN 'A' 'z' (quantN 'E' 'w' (binN ['v'] (atomN 'p') (atomN 'q'))) ∧
    convert_to_pcnf (binN ['v'] (quantN 'A' 'z' (atomN 'p')) (quantN 'E' 'w' (atomN 'q'))) =
      quantN 'A' 'z' (quantN 'E' 'w' (binN ['v'] (atomN 'p') (atomN 'q'))) := by decide

/-- C8: when the iteration budget of `convert_matrix_to_cnf`'s loop is
exhausted, the code silently returns the current tree (here shown on a tree
that is not in CNF) — it raises no `NormalizationError`; indeed no such
exception class exists in the source. -/
theorem C8_cap_returns_silently :
    cnfLoop 0 (binN ['v'] (atomN 'p') (binN ['&'] (atomN 'q') (atomN 'r'))) =
      binN ['v'] (atomN 'p') (binN ['&'] (atomN 'q') (atomN 'r')) ∧
    NoVAB (binN ['v'] (atomN 'p') (binN ['&'] (atomN 'q') (atomN 'r'))) = false := by decide

/-- Counterexample to C9: a leaf occurrence of `old` is replaced even when
`bound` marks it as shadowed, and a quantifier that rebinds `old` has both
its bound variable and its body occurrences renamed. -/
theorem C9_counterexample :
    rename_variable (atomN 'x') ['x'] ['y'] [['x']] = atomN 'y' ∧
    atomN 'y' ≠ atomN 'x' ∧
    rename_variable (quantN 'A' 'x' (atomN 'x')) ['x'] ['y'] [] =
      quantN 'A' 'y' (atomN 'y') := by decide

theorem rename_eq_renameEverywhere :
    ∀ (t : Node) (old new : List Char) (bound : List (List Char)),
      rename_variable t old new bound = renameEverywhere t old new := by
  intro t
  induction t with
  | null => intro old new bound; rfl
  | mk v l r x ihl ihr =>
    intro old new bound
    by_cases h1 : v = ['A'] ∨ v = ['E']
    · simp only [rename_variable, renameEverywhere, if_pos h1]
      cases x with
      | none => simp [ihr]
      | some s => simp [ihr]
    · simp only [rename_variable, renameEverywhere, if_neg h1]
      split_ifs with h2
      · rfl
      · simp [ihl, ihr]

/-- C9 (amended): `rename_variable` ignores its `bound` argument and renames
unconditionally — every single-character leaf occurrence of `old` becomes
`new` regardless of shadowing, and every quantifier binding `old` is rebound
to `new`, as captured by `renameEverywhere`. -/
theorem C9_rename_unconditional (t : Node) (old new : List Char)
    (bound : List (List Char)) :
    rename_variable t old new bound = renameEverywhere t old new :=
  rename_eq_renameEverywhere t old new bound

/-- Counterexample to C2: on the well-formed tree `((Ax p) v (Ax q))` the
standardizer returns both quantifiers still binding `x`, so bound-variable
names are not globally unique across sibling subtrees. -/
theorem C2_counterexample :
    WellFormedB (binN ['v'] (quantN 'A' 'x' (atomN 'p')) (quantN 'A' 'x' (atomN 'q'))) = true ∧
    standardize_variables (binN ['v'] (quantN 'A' 'x' (atomN 'p')) (quantN 'A' 'x' (atomN 'q'))) =
      binN ['v'] (quantN 'A' 'x' (atomN 'p')) (quantN 'A' 'x' (atomN 'q')) ∧
    ¬ (quantVars (standardize_variables (binN ['v'] (quantN 'A' 'x' (atomN 'p'))
        (quantN 'A' 'x' (atomN 'q'))))).Nodup := by decide

/-- Counterexample to C5: the well-formed tree `Atom v` renders to the string
`v`, which the parser rejects with a `ValueError` (the `v`-operator scan
splits it into two empty operands), so the round trip fails. -/
theorem C5_counterexample :
    WellFormedB (atomN 'v') = true ∧
    build_ast_from_expression (ast_to_string (atomN 'v')) =
      .error (.valueError (invalidMsg [])) ∧
    build_ast_from_expression (ast_to_string (atomN 'v')) ≠ .ok (atomN 'v') := by decide

/-- Counterexample to C6: on the single lowercase letter `v` the parser does
not return an atom; the disjunction scan fires and parsing the empty left
operand raises a `ValueError`. -/
theorem C6_counterexample :
    build_ast_from_expression ['v'] = .error (.valueError (invalidMsg [])) ∧
    build_ast_from_expression ['v'] ≠ .ok (atomN 'v') := by decide

/-- Counterexample to C7: the malformed input `(Ax)` (quantifier with no
body) raises `ValueError`, not `SyntaxError` as the claim states. -/
theorem C7_counterexample :
    build_ast_from_expression ('(' :: 'A' :: 'x' :: ')' :: []) =
      .error (.valueError (invalidMsg ('A' :: 'x' :: []))) ∧
    raisesSynErr (build_ast_from_expression ('(' :: 'A' :: 'x' :: ')' :: [])) = false := by
  decide

/-! ## Freshness of the standardizer's generated names -/

theorem freshLoop_not_mem : ∀ (fuel count : Nat) (base : List Char) (used : List (List Char)),
    (∃ k, k < fuel ∧ base ++ natToDec (count + k) ∉ used) →
    freshLoop base used count fuel ∉ used := by
  intro fuel
  induction fuel with
  | zero =>
    intro count base used h
    obtain ⟨k, hk, _⟩ := h
    omega
  | succ f ih =>
    intro count base used h
    obtain ⟨k, hk, hmem⟩ := h
    simp only [freshLoop]
    split_ifs with hin
    · apply ih
      cases k with
      | zero => exact absurd hin (by simpa using hmem)
      | succ k' =>
        refine ⟨k', by omega, ?_⟩
        have harith : count + 1 + k' = count + (k' + 1) := by omega
        rw [harith]
        exact hmem
    · exact hin

theorem fresh_exists (base : List Char) (used : List (List Char)) :
    ∃ k, k < used.length + 1 ∧ base ++ natToDec k ∉ used := by
  by_contra hcon
  push_neg at hcon
  have hinj : Function.Injective
      (fun k : Fin (used.length + 1) => base ++ natToDec (k : Nat)) := by
    intro a b hab
    simp only at hab
    exact Fin.ext (natToDec_injective (List.append_cancel_left hab))
  have hsub : ∀ k : Fin (used.length + 1),
      base ++ natToDec (k : Nat) ∈ used.toFinset := by
    intro k
    rw [List.mem_toFinset]
    exact hcon k k.2
  have hcard := Finset.card_le_card_of_injOn
    (fun k : Fin (used.length + 1) => base ++ natToDec (k : Nat))
    (fun k (_ : k ∈ (Finset.univ : Finset (Fin (used.length + 1)))) => hsub k)
    (hinj.injOn)
  have hc1 : (Finset.univ : Finset (Fin (used.length + 1))).card = used.length + 1 := by
    simp
  have hc2 := List.toFinset_card_le used
  omega

theorem freshVar_not_mem (base : List Char) (used : List (List Char)) :
    freshVar base used ∉ used := by
  unfold freshVar
  split_ifs with h
  · apply freshLoop_not_mem
    obtain ⟨k, hk, hnm⟩ := fresh_exists base used
    exact ⟨k, hk, by simpa using hnm⟩
  · exact h

theorem freshVar_of_not_mem (base : List Char) (used : List (List Char))
    (h : base ∉ used) : freshVar base used = base := by
  unfold freshVar
  rw [if_neg h]

/-! ## Path-wise uniqueness of standardized bound variables -/

theorem rename_quantVars_pathOk :
    ∀ (t : Node) (old new : List Char) (bound : List (List Char)),
      QLeftNullB t = true → old ∉ quantVars t →
      quantVars (rename_variable t old new bound) = quantVars t ∧
      QLeftNullB (rename_variable t old new bound) = true ∧
      (pathOkB t = true → pathOkB (rename_variable t old new bound) = true) := by
  intro t
  induction t with
  | null => intro old new bound _ _; exact ⟨rfl, rfl, fun _ => rfl⟩
  | mk v l r x ihl ihr =>
    intro old new bound hq hold
    simp only [QLeftNullB, Bool.and_eq_true] at hq
    obtain ⟨⟨hq0, hql⟩, hqr⟩ := hq
    by_cases h1 : v = ['A'] ∨ v = ['E']
    · have hlnull : l = .null := by
        rw [if_pos h1] at hq0
        exact of_decide_eq_true hq0
      subst hlnull
      cases x with
      | none =>
        have hold' : old ∉ quantVars r := by
          simp only [quantVars, if_pos h1] at hold
          simpa using hold
        obtain ⟨hqv, hql', hpo⟩ := ihr old new bound hqr hold'
        simp only [rename_variable, if_pos h1]
        refine ⟨?_, ?_, ?_⟩
        · simp [quantVars, if_pos h1, hqv]
        · simp [QLeftNullB, if_pos h1, hql']
        · intro hpath
          simp only [pathOkB, if_pos h1, Bool.and_eq_true] at hpath
          simp [pathOkB, if_pos h1, hpo hpath.2]
      | some s =>
        have hs_ne : s ≠ old := by
          intro heq
          apply hold
          simp [quantVars, if_pos h1, heq]
        have hold' : old ∉ quantVars r := by
          intro hmem
          apply hold
          simp [quantVars, if_pos h1, hmem]
        obtain ⟨hqv, hql', hpo⟩ := ihr old new (s :: bound) hqr hold'
        simp only [rename_variable, if_pos h1, if_neg hs_ne]
        refine ⟨?_, ?_, ?_⟩
        · simp [quantVars, if_pos h1, hqv]
        · simp [QLeftNullB, if_pos h1, hql']
        · intro hpath
          simp only [pathOkB, if_pos h1, Bool.and_eq_true, quantVars] at hpath
          have hp2 := hpath.2
          have hp1 : s ∉ quantVars r := by
            have := hpath.1.1
            have h2 := of_decide_eq_true this
            exact h2.2
          simp [pathOkB, if_pos h1, hpo hp2, hqv, hp1, quantVars]
    · by_cases h2 : l = .null ∧ r = .null ∧ v = old ∧ old.length = 1
      · obtain ⟨rfl, rfl, rfl, hlen⟩ := h2
        simp only [rename_variable, if_neg h1]
        split_ifs with h3
        · refine ⟨?_, ?_, fun _ => ?_⟩
          · simp only [quantVars, if_neg h1]
            split_ifs with h4 <;> simp [quantVars]
          · simp only [QLeftNullB]
            split_ifs with h4 <;> simp [QLeftNullB]
          · simp only [pathOkB]
            split_ifs with h4 <;> simp [pathOkB, quantVars]
        · exact absurd (by simp [hlen]) h3
      · simp only [rename_variable, if_neg h1, if_neg h2]
        have holdl : old ∉ quantVars l := by
          simp only [quantVars, if_neg h1, List.mem_append] at hold
          tauto
        have holdr : old ∉ quantVars r := by
          simp only [quantVars, if_neg h1, List.mem_append] at hold
          tauto
        obtain ⟨hqvl, hqll, hpol⟩ := ihl old new bound hql holdl
        obtain ⟨hqvr, hqlr, hpor⟩ := ihr old new bound hqr holdr
        refine ⟨?_, ?_, ?_⟩
        · simp [quantVars, if_neg h1, hqvl, hqvr]
        · simp [QLeftNullB, if_neg h1, hqll, hqlr]
        · intro hpath
          simp only [pathOkB, if_neg h1, Bool.and_eq_true] at hpath
          simp [pathOkB, if_neg h1, hpol hpath.1.2, hpor hpath.2]

theorem standardize_main :
    ∀ (t : Node) (used : List (List Char)),
      (∀ w, w ∈ quantVars (standardizeAux t used) → w ∉ used) ∧
      QLeftNullB (standardizeAux t used) = true ∧
      pathOkB (standardizeAux t used) = true := by
  intro t
  induction t with
  | null =>
    intro used
    exact ⟨by intro w hw; simp [standardizeAux, quantVars] at hw, rfl, rfl⟩
  | mk v l r x ihl ihr =>
    intro used
    by_cases h1 : v = ['A'] ∨ v = ['E']
    · cases x with
      | none =>
        simp only [standardizeAux, if_pos h1]
        obtain ⟨ih1, ih2, ih3⟩ := ihr (freshVar ['v'] used :: used)
        refine ⟨?_, ?_, ?_⟩
        · intro w hw
          simp only [quantVars, if_pos h1] at hw
          simp only [List.append_nil, List.nil_append, List.mem_cons,
            List.mem_append, List.mem_singleton] at hw
          rcases hw with (rfl | hw) | hw
          · exact freshVar_not_mem _ used
          · simp at hw
          · intro hmem
            exact ih1 w hw (by simp [hmem])
        · simp [QLeftNullB, if_pos h1, ih2]
        · have hnv : freshVar ['v'] used ∉ quantVars (standardizeAux r
              (freshVar ['v'] used :: used)) := by
            intro hmem
            exact ih1 _ hmem (by simp)
          simp [pathOkB, if_pos h1, ih3, hnv, quantVars]
      | some s =>
        simp only [standardizeAux, if_pos h1]
        by_cases hne : freshVar s used ≠ s
        · have hs_used : s ∈ used := by
            by_contra hs
            exact hne (freshVar_of_not_mem s used hs)
          obtain ⟨ih1, ih2, ih3⟩ := ihr (freshVar s used :: used)
          have hs_not : s ∉ quantVars (standardizeAux r (freshVar s used :: used)) := by
            intro hmem
            exact ih1 s hmem (by simp [hs_used])
          obtain ⟨hqv, hql, hpo⟩ :=
            rename_quantVars_pathOk (standardizeAux r (freshVar s used :: used))
              s (freshVar s used) [s] ih2 hs_not
          rw [if_pos hne]
          refine ⟨?_, ?_, ?_⟩
          · intro w hw
            simp only [quantVars, if_pos h1] at hw
            simp only [List.append_nil, List.nil_append, List.mem_cons,
              List.mem_append, List.mem_singleton] at hw
            rcases hw with (rfl | hw) | hw
            · exact freshVar_not_mem _ used
            · simp at hw
            · rw [hqv] at hw
              intro hmem
              exact ih1 w hw (by simp [hmem])
          · simp [QLeftNullB, if_pos h1, hql]
          · have hnv : freshVar s used ∉ quantVars (rename_variable
                (standardizeAux r (freshVar s used :: used)) s (freshVar s used) [s]) := by
              rw [hqv]
              intro hmem
              exact ih1 _ hmem (by simp)
            simp [pathOkB, if_pos h1, hpo ih3, hnv, quantVars]
        · rw [not_not] at hne
          obtain ⟨ih1, ih2, ih3⟩ := ihr (freshVar s used :: used)
          rw [if_neg (fun h => h hne)]
          refine ⟨?_, ?_, ?_⟩
          · intro w hw
            simp only [quantVars, if_pos h1] at hw
            simp only [List.append_nil, List.nil_append, List.mem_cons,
              List.mem_append, List.mem_singleton] at hw
            rcases hw with (rfl | hw) | hw
            · exact freshVar_not_mem _ used
            · simp at hw
            · intro hmem
              exact ih1 w hw (by simp [hmem])
          · simp [QLeftNullB, if_pos h1, ih2]
          · have hnv : freshVar s used ∉ quantVars (standardizeAux r
                (freshVar s used :: used)) := by
              intro hmem
              exact ih1 _ hmem (by simp)
            simp [pathOkB, if_pos h1, ih3, hnv, quantVars]
    · simp only [standardizeAux, if_neg h1]
      obtain ⟨al, bl, cl⟩ := ihl used
      obtain ⟨ar, br, cr⟩ := ihr used
      refine ⟨?_, ?_, ?_⟩
      · intro w hw
        simp only [quantVars, if_neg h1, List.mem_append] at hw
        rcases hw with hw | hw
        · exact al w hw
        · exact ar w hw
      · simp [QLeftNullB, if_neg h1, bl, br]
      · simp [pathOkB, if_neg h1, cl, cr]

/-- C2 (amended): after `standardize_variables`, every quantifier's bound
variable differs from the bound variables of all quantifiers in its own
subtree, i.e. names are unique along every root-to-leaf path.  (Global
uniqueness across sibling subtrees fails, see `C2_counterexample`.) -/
theorem C2_pathwise_unique (t : Node) : pathOkB (standardize_variables t) = true :=
  (standardize_main t []).2.2

/-! ## Fuel sufficiency for `distribute_or_over_and` -/

theorem dW_mk (v : List Char) (l r : Node) (x : Option (List Char)) :
    dW (.mk v l r x) = if v = ['v'] then dW l * dW r + 1 else dW l + dW r + 1 := rfl

theorem dW_ge_two : ∀ n : Node, 2 ≤ dW n := by
  intro n
  cases n with
  | null => simp [dW]
  | mk v l r x =>
    rw [dW_mk]
    split_ifs with h
    · nlinarith [dW_ge_two l, dW_ge_two r]
    · nlinarith [dW_ge_two l, dW_ge_two r]

theorem dW_split_of_valueO (r : Node) (w : List Char) (hw : w ≠ ['v'])
    (h : r.valueO = some w) : dW r.leftN + dW r.rightN + 1 = dW r := by
  cases r with
  | null => simp [Node.valueO] at h
  | mk rv rl rr rx =>
    simp only [Node.valueO, Option.some.injEq] at h
    subst h
    simp [Node.leftN, Node.rightN, dW_mk, hw]

theorem distF_dW_le : ∀ (f : Nat) (n : Node), dW (distF f n) ≤ dW n := by
  intro f
  induction f with
  | zero => intro n; exact le_rfl
  | succ f ih =>
    intro n
    cases n with
    | null => exact le_rfl
    | mk v l r x =>
      simp only [distF]
      by_cases hq : v = ['A'] ∨ v = ['E']
      · rw [if_pos hq]
        rcases hq with rfl | rfl <;>
          · rw [dW_mk, dW_mk]
            simp only [if_neg (by decide : ¬(['A'] : List Char) = ['v']),
              if_neg (by decide : ¬(['E'] : List Char) = ['v'])]
            have := ih r
            omega
      · rw [if_neg hq]
        by_cases hv : v = ['v']
        · rw [if_pos hv]
          by_cases hr : (distF f r).valueO = some ['&']
          · rw [if_pos hr]
            have hsplit := dW_split_of_valueO (distF f r) ['&'] (by decide) hr
            have h1 := ih l
            have h2 := ih r
            have h3 := ih (Node.mk ['v'] (distF f l) (distF f r).leftN none)
            have h4 := ih (Node.mk ['v'] (distF f l) (distF f r).rightN none)
            rw [dW_mk] at h3 h4
            rw [if_pos rfl] at h3 h4
            subst hv
            rw [dW_mk, dW_mk]
            rw [if_neg (by decide : ¬(['&'] : List Char) = ['v']), if_pos rfl]
            have hm1 : dW (distF f l) * dW (distF f r).leftN ≤ dW l * dW (distF f r).leftN :=
              Nat.mul_le_mul_right _ h1
            have hm2 : dW (distF f l) * dW (distF f r).rightN ≤ dW l * dW (distF f r).rightN :=
              Nat.mul_le_mul_right _ h1
            have hm3 : dW l * (dW (distF f r).leftN + dW (distF f r).rightN + 1) ≤
                dW l * dW r := Nat.mul_le_mul_left _ (by omega)
            have hd := dW_ge_two l
            nlinarith
          · rw [if_neg hr]
            by_cases hl : (distF f l).valueO = some ['&']
            · rw [if_pos hl]
              have hsplit := dW_split_of_valueO (distF f l) ['&'] (by decide) hl
              have h1 := ih l
              have h2 := ih r
              have h3 := ih (Node.mk ['v'] (distF f l).leftN (distF f r) none)
              have h4 := ih (Node.mk ['v'] (distF f l).rightN (distF f r) none)
              rw [dW_mk] at h3 h4
              rw [if_pos rfl] at h3 h4
              subst hv
              rw [dW_mk, dW_mk]
              rw [if_neg (by decide : ¬(['&'] : List Char) = ['v']), if_pos rfl]
              have hm1 : dW (distF f l).leftN * dW (distF f r) ≤
                  dW (distF f l).leftN * dW r := Nat.mul_le_mul_left _ h2
              have hm2 : dW (distF f l).rightN * dW (distF f r) ≤
                  dW (distF f l).rightN * dW r := Nat.mul_le_mul_left _ h2
              have hm3 : (dW (distF f l).leftN + dW (distF f l).rightN + 1) * dW r ≤
                  dW l * dW r := Nat.mul_le_mul_right _ (by omega)
              have hd := dW_ge_two (distF f r)
              have hd2 := dW_ge_two r
              nlinarith
            · rw [if_neg hl]
              subst hv
              rw [dW_mk, dW_mk, if_pos rfl, if_pos rfl]
              have := Nat.mul_le_mul (ih l) (ih r)
              omega
        · rw [if_neg hv]
          rw [dW_mk, dW_mk, if_neg hv, if_neg hv]
          have := ih l
          have := ih r
          omega

theorem distF_congr : ∀ (k : Nat) (n : Node), dW n ≤ k → ∀ f g, dW n ≤ f → dW n ≤ g →
    distF f n = distF g n := by
  intro k
  induction k with
  | zero =>
    intro n hn _ _ _ _
    exact absurd hn (by have := dW_ge_two n; omega)
  | succ k ih =>
    intro n hn f g hf hg
    cases n with
    | null =>
      cases f <;> cases g <;> rfl
    | mk v l r x =>
      have h2 := dW_ge_two (Node.mk v l r x)
      have h2l := dW_ge_two l
      have h2r := dW_ge_two r
      cases f with
      | zero => omega
      | succ f' =>
        cases g with
        | zero => omega
        | succ g' =>
          simp only [distF]
          by_cases hq : v = ['A'] ∨ v = ['E']
          · rw [if_pos hq, if_pos hq]
            have hsum : dW l + dW r + 1 = dW (Node.mk v l r x) := by
              rcases hq with rfl | rfl <;> simp [dW_mk]
            have := ih r (by omega) f' g' (by omega) (by omega)
            rw [this]
          · rw [if_neg hq, if_neg hq]
            by_cases hv : v = ['v']
            · subst hv
              have hprod : dW l * dW r + 1 = dW (Node.mk ['v'] l r x) := by simp [dW_mk]
              have hlr : dW l + 1 ≤ dW l * dW r := by nlinarith
              have hrr : dW r + 1 ≤ dW l * dW r := by nlinarith
              have hleq : distF f' l = distF g' l :=
                ih l (by omega) f' g' (by omega) (by omega)
              have hreq : distF f' r = distF g' r :=
                ih r (by omega) f' g' (by omega) (by omega)
              rw [hleq, hreq]
              have hgl := distF_dW_le g' l
              have hgr := distF_dW_le g' r
              by_cases hr : (distF g' r).valueO = some ['&']
              · rw [if_pos hr, if_pos hr]
                have hsplit := dW_split_of_valueO (distF g' r) ['&'] (by decide) hr
                have hbl := dW_ge_two (distF g' r).leftN
                have hbr := dW_ge_two (distF g' r).rightN
                have hdl := dW_ge_two (distF g' l)
                have hin1 : dW (Node.mk ['v'] (distF g' l) (distF g' r).leftN none) <
                    dW (Node.mk ['v'] l r x) := by
                  rw [dW_mk, if_pos rfl, dW_mk, if_pos rfl]
                  have e1 : dW (distF g' l) * dW (distF g' r).leftN ≤
                      dW l * dW (distF g' r).leftN := Nat.mul_le_mul_right _ hgl
                  have e2 : dW l * dW (distF g' r).leftN < dW l * dW r :=
                    mul_lt_mul_of_pos_left (by omega) (by omega)
                  omega
                have hin2 : dW (Node.mk ['v'] (distF g' l) (distF g' r).rightN none) <
                    dW (Node.mk ['v'] l r x) := by
                  rw [dW_mk, if_pos rfl, dW_mk, if_pos rfl]
                  have e1 : dW (distF g' l) * dW (distF g' r).rightN ≤
                      dW l * dW (distF g' r).rightN := Nat.mul_le_mul_right _ hgl
                  have e2 : dW l * dW (distF g' r).rightN < dW l * dW r :=
                    mul_lt_mul_of_pos_left (by omega) (by omega)
                  omega
                rw [ih (Node.mk ['v'] (distF g' l) (distF g' r).leftN none) (by omega)
                    f' g' (by omega) (by omega),
                  ih (Node.mk ['v'] (distF g' l) (distF g' r).rightN none) (by omega)
                    f' g' (by omega) (by omega)]
              · rw [if_neg hr, if_neg hr]
                by_cases hl : (distF g' l).valueO = some ['&']
                · rw [if_pos hl, if_pos hl]
                  have hsplit := dW_split_of_valueO (distF g' l) ['&'] (by decide) hl
                  have hbl := dW_ge_two (distF g' l).leftN
                  have hbr := dW_ge_two (distF g' l).rightN
                  have hdr := dW_ge_two (distF g' r)
                  have hin1 : dW (Node.mk ['v'] (distF g' l).leftN (distF g' r) none) <
                      dW (Node.mk ['v'] l r x) := by
                    rw [dW_mk, if_pos rfl, dW_mk, if_pos rfl]
                    have e1 : dW (distF g' l).leftN * dW (distF g' r) ≤
                        dW (distF g' l).leftN * dW r := Nat.mul_le_mul_left _ hgr
                    have e2 : dW (distF g' l).leftN * dW r < dW l * dW r :=
                      mul_lt_mul_of_pos_right (by omega) (by omega)
                    omega
                  have hin2 : dW (Node.mk ['v'] (distF g' l).rightN (distF g' r) none) <
                      dW (Node.mk ['v'] l r x) := by
                    rw [dW_mk, if_pos rfl, dW_mk, if_pos rfl]
                    have e1 : dW (distF g' l).rightN * dW (distF g' r) ≤
                        dW (distF g' l).rightN * dW r := Nat.mul_le_mul_left _ hgr
                    have e2 : dW (distF g' l).rightN * dW r < dW l * dW r :=
                      mul_lt_mul_of_pos_right (by omega) (by omega)
                    omega
                  rw [ih (Node.mk ['v'] (distF g' l).leftN (distF g' r) none) (by omega)
                      f' g' (by omega) (by omega),
                    ih (Node.mk ['v'] (distF g' l).rightN (distF g' r) none) (by omega)
                      f' g' (by omega) (by omega)]
                · rw [if_neg hl, if_neg hl]
            · rw [if_neg hv, if_neg hv]
              have hsum : dW l + dW r + 1 = dW (Node.mk v l r x) := by
                rw [dW_mk, if_neg hv]
              rw [ih l (by omega) f' g' (by omega) (by omega),
                ih r (by omega) f' g' (by omega) (by omega)]

theorem distF_dW (n : Node) (f : Nat) (hf : dW n ≤ f) :
    distF f n = distribute_or_over_and n :=
  distF_congr (dW n) n le_rfl f (dW n) hf le_rfl

theorem dist_null : distribute_or_over_and .null = .null := rfl

theorem dW_le_mul_left (l r : Node) : dW l ≤ dW l * dW r :=
  Nat.le_mul_of_pos_right _ (by have := dW_ge_two r; omega)

theorem dW_le_mul_right (l r : Node) : dW r ≤ dW l * dW r :=
  Nat.le_mul_of_pos_left _ (by have := dW_ge_two l; omega)

theorem dist_quant (v : List Char) (l r : Node) (x : Option (List Char))
    (h : v = ['A'] ∨ v = ['E']) :
    distribute_or_over_and (.mk v l r x) = .mk v l (distribute_or_over_and r) x := by
  show distF (dW (.mk v l r x)) _ = _
  have hsum : dW (Node.mk v l r x) = (dW l + dW r) + 1 := by
    rcases h with rfl | rfl <;> simp [dW_mk]
  rw [hsum]
  simp only [distF]
  rw [if_pos h, distF_dW r _ (by omega)]

theorem dist_generic (v : List Char) (l r : Node) (x : Option (List Char))
    (h1 : ¬(v = ['A'] ∨ v = ['E'])) (hv : v ≠ ['v']) :
    distribute_or_over_and (.mk v l r x) =
      .mk v (distribute_or_over_and l) (distribute_or_over_and r) x := by
  show distF (dW (.mk v l r x)) _ = _
  have hsum : dW (Node.mk v l r x) = (dW l + dW r) + 1 := by rw [dW_mk, if_neg hv]
  rw [hsum]
  simp only [distF]
  rw [if_neg h1, if_neg hv, distF_dW l _ (by omega), distF_dW r _ (by omega)]

theorem dist_or_unfold (l r : Node) (x : Option (List Char)) :
    distribute_or_over_and (.mk ['v'] l r x) =
      (if (distribute_or_over_and r).valueO = some ['&'] then
        .mk ['&']
          (distribute_or_over_and (.mk ['v'] (distribute_or_over_and l)
            (distribute_or_over_and r).leftN none))
          (distribute_or_over_and (.mk ['v'] (distribute_or_over_and l)
            (distribute_or_over_and r).rightN none)) none
      else if (distribute_or_over_and l).valueO = some ['&'] then
        .mk ['&']
          (distribute_or_over_and (.mk ['v'] (distribute_or_over_and l).leftN
            (distribute_or_over_and r) none))
          (distribute_or_over_and (.mk ['v'] (distribute_or_over_and l).rightN
            (distribute_or_over_and r) none)) none
      else .mk ['v'] (distribute_or_over_and l) (distribute_or_over_and r) x) := by
  have h2l := dW_ge_two l
  have h2r := dW_ge_two r
  have hgl := distF_dW_le (dW l * dW r) l
  have hgr := distF_dW_le (dW l * dW r) r
  show distF (dW (.mk ['v'] l r x)) _ = _
  have hprod : dW (Node.mk ['v'] l r x) = (dW l * dW r) + 1 := by simp [dW_mk]
  rw [hprod]
  simp only [distF]
  rw [if_neg (by decide : ¬((['v'] : List Char) = ['A'] ∨ (['v'] : List Char) = ['E']))]
  simp only [if_true]
  rw [distF_dW l _ (dW_le_mul_left l r), distF_dW r _ (dW_le_mul_right l r)]
  by_cases hr : (distribute_or_over_and r).valueO = some ['&']
  · rw [if_pos hr, if_pos hr]
    have hsplit := dW_split_of_valueO (distribute_or_over_and r) ['&'] (by decide) hr
    have hdr := distF_dW_le (dW r) r
    have hrle : dW (distribute_or_over_and r) ≤ dW r := hdr
    have hbl := dW_ge_two (distribute_or_over_and r).leftN
    have hbr := dW_ge_two (distribute_or_over_and r).rightN
    have hdl : dW (distribute_or_over_and l) ≤ dW l := distF_dW_le (dW l) l
    have hin1 : dW (Node.mk ['v'] (distribute_or_over_and l)
        (distribute_or_over_and r).leftN none) ≤ dW l * dW r := by
      rw [dW_mk, if_pos rfl]
      have e1 : dW (distribute_or_over_and l) * dW (distribute_or_over_and r).leftN ≤
          dW l * dW (distribute_or_over_and r).leftN := Nat.mul_le_mul_right _ hdl
      have e2 : dW l * dW (distribute_or_over_and r).leftN < dW l * dW r :=
        mul_lt_mul_of_pos_left (by omega) (by omega)
      omega
    have hin2 : dW (Node.mk ['v'] (distribute_or_over_and l)
        (distribute_or_over_and r).rightN none) ≤ dW l * dW r := by
      rw [dW_mk, if_pos rfl]
      have e1 : dW (distribute_or_over_and l) * dW (distribute_or_over_and r).rightN ≤
          dW l * dW (distribute_or_over_and r).rightN := Nat.mul_le_mul_right _ hdl
      have e2 : dW l * dW (distribute_or_over_and r).rightN < dW l * dW r :=
        mul_lt_mul_of_pos_left (by omega) (by omega)
      omega
    rw [distF_dW _ _ hin1, distF_dW _ _ hin2]
  · rw [if_neg hr, if_neg hr]
    by_cases hl : (distribute_or_over_and l).valueO = some ['&']
    · rw [if_pos hl, if_pos hl]
      have hsplit := dW_split_of_valueO (distribute_or_over_and l) ['&'] (by decide) hl
      have hdl : dW (distribute_or_over_and l) ≤ dW l := distF_dW_le (dW l) l
      have hdr : dW (distribute_or_over_and r) ≤ dW r := distF_dW_le (dW r) r
      have hbl := dW_ge_two (distribute_or_over_and l).leftN
      have hbr := dW_ge_two (distribute_or_over_and l).rightN
      have hin1 : dW (Node.mk ['v'] (distribute_or_over_and l).leftN
          (distribute_or_over_and r) none) ≤ dW l * dW r := by
        rw [dW_mk, if_pos rfl]
        have e1 : dW (distribute_or_over_and l).leftN * dW (distribute_or_over_and r) ≤
            dW (distribute_or_over_and l).leftN * dW r := Nat.mul_le_mul_left _ hdr
        have e2 : dW (distribute_or_over_and l).leftN * dW r < dW l * dW r :=
          mul_lt_mul_of_pos_right (by omega) (by omega)
        omega
      have hin2 : dW (Node.mk ['v'] (distribute_or_over_and l).rightN
          (distribute_or_over_and r) none) ≤ dW l * dW r := by
        rw [dW_mk, if_pos rfl]
        have e1 : dW (distribute_or_over_and l).rightN * dW (distribute_or_over_and r) ≤
            dW (distribute_or_over_and l).rightN * dW r := Nat.mul_le_mul_left _ hdr
        have e2 : dW (distribute_or_over_and l).rightN * dW r < dW l * dW r :=
          mul_lt_mul_of_pos_right (by omega) (by omega)
        omega
      rw [distF_dW _ _ hin1, distF_dW _ _ hin2]
    · rw [if_neg hl, if_neg hl]

theorem NoQuant_parts (v : List Char) (l r : Node) (x : Option (List Char))
    (h : NoQuantB (.mk v l r x) = true) :
    v ≠ ['A'] ∧ v ≠ ['E'] ∧ NoQuantB l = true ∧ NoQuantB r = true := by
  simp only [NoQuantB, Bool.and_eq_true] at h
  have := of_decide_eq_true h.1.1
  exact ⟨this.1, this.2, h.1.2, h.2⟩

theorem NoQuant_leftN (n : Node) (h : NoQuantB n = true) : NoQuantB n.leftN = true := by
  cases n with
  | null => rfl
  | mk v l r x => exact (NoQuant_parts v l r x h).2.2.1

theorem NoQuant_rightN (n : Node) (h : NoQuantB n = true) : NoQuantB n.rightN = true := by
  cases n with
  | null => rfl
  | mk v l r x => exact (NoQuant_parts v l r x h).2.2.2

theorem dist_NoVA : ∀ (k : Nat) (n : Node), dW n ≤ k → NoQuantB n = true →
    NoVAB (distribute_or_over_and n) = true ∧
    NoQuantB (distribute_or_over_and n) = true ∧
    (distribute_or_over_and n).valueO ≠ some ['A'] ∧
    (distribute_or_over_and n).valueO ≠ some ['E'] := by
  intro k
  induction k with
  | zero =>
    intro n hn _
    exact absurd hn (by have := dW_ge_two n; omega)
  | succ k ih =>
    intro n hn hq
    cases n with
    | null =>
      rw [dist_null]
      exact ⟨rfl, rfl, by simp [Node.valueO], by simp [Node.valueO]⟩
    | mk v l r x =>
      obtain ⟨hv1, hv2, hql, hqr⟩ := NoQuant_parts v l r x hq
      have h2l := dW_ge_two l
      have h2r := dW_ge_two r
      by_cases hv : v = ['v']
      · subst hv
        have hprod : dW (Node.mk ['v'] l r x) = dW l * dW r + 1 := by simp [dW_mk]
        have hlle : dW l + 1 ≤ dW l * dW r := by nlinarith
        have hrle : dW r + 1 ≤ dW l * dW r := by nlinarith
        obtain ⟨nvl, nql, _, _⟩ := ih l (by omega) hql
        obtain ⟨nvr, nqr, _, _⟩ := ih r (by omega) hqr
        rw [dist_or_unfold l r x]
        have hdl : dW (distribute_or_over_and l) ≤ dW l := distF_dW_le (dW l) l
        have hdr : dW (distribute_or_over_and r) ≤ dW r := distF_dW_le (dW r) r
        by_cases hr : (distribute_or_over_and r).valueO = some ['&']
        · rw [if_pos hr]
          have hsplit := dW_split_of_valueO (distribute_or_over_and r) ['&'] (by decide) hr
          have hbl := dW_ge_two (distribute_or_over_and r).leftN
          have hbr := dW_ge_two (distribute_or_over_and r).rightN
          have hdl2 : dW (distribute_or_over_and l) ≤ dW l := distF_dW_le (dW l) l
          have harg1 : dW (Node.mk ['v'] (distribute_or_over_and l)
              (distribute_or_over_and r).leftN none) ≤ k := by
            rw [dW_mk, if_pos rfl]
            have e1 : dW (distribute_or_over_and l) * dW (distribute_or_over_and r).leftN ≤
                dW l * dW (distribute_or_over_and r).leftN := Nat.mul_le_mul_right _ hdl2
            have e2 : dW l * dW (distribute_or_over_and r).leftN < dW l * dW r :=
              mul_lt_mul_of_pos_left (by omega) (by omega)
            omega
          have harg2 : dW (Node.mk ['v'] (distribute_or_over_and l)
              (distribute_or_over_and r).rightN none) ≤ k := by
            rw [dW_mk, if_pos rfl]
            have e1 : dW (distribute_or_over_and l) * dW (distribute_or_over_and r).rightN ≤
                dW l * dW (distribute_or_over_and r).rightN := Nat.mul_le_mul_right _ hdl2
            have e2 : dW l * dW (distribute_or_over_and r).rightN < dW l * dW r :=
              mul_lt_mul_of_pos_left (by omega) (by omega)
            omega
          have hq1 : NoQuantB (Node.mk ['v'] (distribute_or_over_and l)
              (distribute_or_over_and r).leftN none) = true := by
            simp only [NoQuantB, Bool.and_eq_true]
            exact ⟨⟨by decide, nql⟩, NoQuant_leftN _ nqr⟩
          have hq2 : NoQuantB (Node.mk ['v'] (distribute_or_over_and l)
              (distribute_or_over_and r).rightN none) = true := by
            simp only [NoQuantB, Bool.and_eq_true]
            exact ⟨⟨by decide, nql⟩, NoQuant_rightN _ nqr⟩
          obtain ⟨d1v, d1q, _, _⟩ := ih _ harg1 hq1
          obtain ⟨d2v, d2q, _, _⟩ := ih _ harg2 hq2
          refine ⟨?_, ?_, by simp [Node.valueO], by simp [Node.valueO]⟩
          · simp only [NoVAB, Bool.and_eq_true]
            exact ⟨⟨by rw [if_neg (by decide)], d1v⟩, d2v⟩
          · simp only [NoQuantB, Bool.and_eq_true]
            exact ⟨⟨by decide, d1q⟩, d2q⟩
        · rw [if_neg hr]
          by_cases hl : (distribute_or_over_and l).valueO = some ['&']
          · rw [if_pos hl]
            have hsplit := dW_split_of_valueO (distribute_or_over_and l) ['&'] (by decide) hl
            have hbl := dW_ge_two (distribute_or_over_and l).leftN
            have hbr := dW_ge_two (distribute_or_over_and l).rightN
            have harg1 : dW (Node.mk ['v'] (distribute_or_over_and l).leftN
                (distribute_or_over_and r) none) ≤ k := by
              rw [dW_mk, if_pos rfl]
              have e1 : dW (distribute_or_over_and l).leftN * dW (distribute_or_over_and r) ≤
                  dW (distribute_or_over_and l).leftN * dW r := Nat.mul_le_mul_left _ hdr
              have e2 : dW (distribute_or_over_and l).leftN * dW r < dW l * dW r :=
                mul_lt_mul_of_pos_right (by omega) (by omega)
              omega
            have harg2 : dW (Node.mk ['v'] (distribute_or_over_and l).rightN
                (distribute_or_over_and r) none) ≤ k := by
              rw [dW_mk, if_pos rfl]
              have e1 : dW (distribute_or_over_and l).rightN * dW (distribute_or_over_and r) ≤
                  dW (distribute_or_over_and l).rightN * dW r := Nat.mul_le_mul_left _ hdr
              have e2 : dW (distribute_or_over_and l).rightN * dW r < dW l * dW r :=
                mul_lt_mul_of_pos_right (by omega) (by omega)
              omega
            have hq1 : NoQuantB (Node.mk ['v'] (distribute_or_over_and l).leftN
                (distribute_or_over_and r) none) = true := by
              simp only [NoQuantB, Bool.and_eq_true]
              exact ⟨⟨by decide, NoQuant_leftN _ nql⟩, nqr⟩
            have hq2 : NoQuantB (Node.mk ['v'] (distribute_or_over_and l).rightN
                (distribute_or_over_and r) none) = true := by
              simp only [NoQuantB, Bool.and_eq_true]
              exact ⟨⟨by decide, NoQuant_rightN _ nql⟩, nqr⟩
            obtain ⟨d1v, d1q, _, _⟩ := ih _ harg1 hq1
            obtain ⟨d2v, d2q, _, _⟩ := ih _ harg2 hq2
            refine ⟨?_, ?_, by simp [Node.valueO], by simp [Node.valueO]⟩
            · simp only [NoVAB, Bool.and_eq_true]
              exact ⟨⟨by rw [if_neg (by decide)], d1v⟩, d2v⟩
            · simp only [NoQuantB, Bool.and_eq_true]
              exact ⟨⟨by decide, d1q⟩, d2q⟩
          · rw [if_neg hl]
            refine ⟨?_, ?_, by simp [Node.valueO], by simp [Node.valueO]⟩
            · simp only [NoVAB, Bool.and_eq_true]
              refine ⟨⟨?_, nvl⟩, nvr⟩
              simp only [if_true]
              exact decide_eq_true ⟨hl, hr⟩
            · simp only [NoQuantB, Bool.and_eq_true]
              exact ⟨⟨by decide, nql⟩, nqr⟩
      · rw [dist_generic v l r x (by tauto) hv]
        have hsum : dW (Node.mk v l r x) = dW l + dW r + 1 := by rw [dW_mk, if_neg hv]
        obtain ⟨nvl, nql, _, _⟩ := ih l (by omega) hql
        obtain ⟨nvr, nqr, _, _⟩ := ih r (by omega) hqr
        refine ⟨?_, ?_, by simp [Node.valueO, hv1], by simp [Node.valueO, hv2]⟩
        · simp only [NoVAB, Bool.and_eq_true]
          exact ⟨⟨by rw [if_neg hv], nvl⟩, nvr⟩
        · simp only [NoQuantB, Bool.and_eq_true]
          exact ⟨⟨decide_eq_true ⟨hv1, hv2⟩, nql⟩, nqr⟩

theorem NoVA_parts (v : List Char) (l r : Node) (x : Option (List Char))
    (h : NoVAB (.mk v l r x) = true) :
    NoVAB l = true ∧ NoVAB r = true ∧
    (v = ['v'] → l.valueO ≠ some ['&'] ∧ r.valueO ≠ some ['&']) := by
  simp only [NoVAB, Bool.and_eq_true] at h
  refine ⟨h.1.2, h.2, fun hv => ?_⟩
  have := h.1.1
  rw [if_pos hv] at this
  exact of_decide_eq_true this

theorem dist_id : ∀ (k : Nat) (n : Node), dW n ≤ k → NoVAB n = true →
    distribute_or_over_and n = n := by
  intro k
  induction k with
  | zero =>
    intro n hn _
    exact absurd hn (by have := dW_ge_two n; omega)
  | succ k ih =>
    intro n hn hva
    cases n with
    | null => exact dist_null
    | mk v l r x =>
      obtain ⟨hvl, hvr, hvv⟩ := NoVA_parts v l r x hva
      have h2l := dW_ge_two l
      have h2r := dW_ge_two r
      by_cases hq : v = ['A'] ∨ v = ['E']
      · have hsum : dW (Node.mk v l r x) = dW l + dW r + 1 := by
          rcases hq with rfl | rfl <;> simp [dW_mk]
        rw [dist_quant v l r x hq, ih r (by omega) hvr]
      · by_cases hv : v = ['v']
        · subst hv
          have hprod : dW (Node.mk ['v'] l r x) = dW l * dW r + 1 := by simp [dW_mk]
          have hlle : dW l + 1 ≤ dW l * dW r := by nlinarith
          have hrle : dW r + 1 ≤ dW l * dW r := by nlinarith
          have hdl := ih l (by omega) hvl
          have hdr := ih r (by omega) hvr
          rw [dist_or_unfold l r x, hdl, hdr]
          obtain ⟨hlv, hrv⟩ := hvv rfl
          rw [if_neg hrv, if_neg hlv]
        · have hsum : dW (Node.mk v l r x) = dW l + dW r + 1 := by rw [dW_mk, if_neg hv]
          rw [dist_generic v l r x hq hv, ih l (by omega) hvl, ih r (by omega) hvr]

theorem nodes_equal_refl : ∀ n : Node, nodes_equal n n = true := by
  intro n
  induction n with
  | null => rfl
  | mk v l r x ihl ihr => simp [nodes_equal, ihl, ihr]

theorem cnfLoop_eq_dist (t : Node)
    (hid : distribute_or_over_and (distribute_or_over_and t) = distribute_or_over_and t) :
    ∀ k, cnfLoop (k + 2) t = distribute_or_over_and t := by
  intro k
  show cnfLoop ((k + 1) + 1) t = _
  simp only [cnfLoop]
  split_ifs with h1 h2
  · rfl
  · exact hid
  · rw [hid, nodes_equal_refl] at h2
    exact absurd rfl h2

/-- C10: for every quantifier-free tree, one application of
`distribute_or_over_and` already yields a tree with no `v` node over an `&`
child, a second application returns the same tree, and the fixpoint loop of
`convert_matrix_to_cnf` stabilizes within two iterations, so the
100-iteration cap is unreachable. -/
theorem C10_single_pass_cnf (t : Node) (h : NoQuantB t = true) :
    NoVAB (distribute_or_over_and t) = true ∧
    distribute_or_over_and (distribute_or_over_and t) = distribute_or_over_and t ∧
    convert_matrix_to_cnf t = distribute_or_over_and t ∧
    cnfLoop 2 t = convert_matrix_to_cnf t := by
  have hva := (dist_NoVA (dW t) t le_rfl h).1
  have hid := dist_id (dW (distribute_or_over_and t)) (distribute_or_over_and t) le_rfl hva
  have h100 : convert_matrix_to_cnf t = distribute_or_over_and t := cnfLoop_eq_dist t hid 98
  exact ⟨hva, hid, h100, by rw [h100]; exact cnfLoop_eq_dist t hid 0⟩

/-- Witness for C10 at the quantifier-free input `(p v (q & r))`. -/
theorem C10_witness :
    NoQuantB (binN ['v'] (atomN 'p') (binN ['&'] (atomN 'q') (atomN 'r'))) = true ∧
    (NoVAB (distribute_or_over_and (binN ['v'] (atomN 'p')
        (binN ['&'] (atomN 'q') (atomN 'r')))) = true ∧
     distribute_or_over_and (distribute_or_over_and (binN ['v'] (atomN 'p')
        (binN ['&'] (atomN 'q') (atomN 'r')))) =
       distribute_or_over_and (binN ['v'] (atomN 'p') (binN ['&'] (atomN 'q') (atomN 'r'))) ∧
     convert_matrix_to_cnf (binN ['v'] (atomN 'p') (binN ['&'] (atomN 'q') (atomN 'r'))) =
       distribute_or_over_and (binN ['v'] (atomN 'p') (binN ['&'] (atomN 'q') (atomN 'r'))) ∧
     cnfLoop 2 (binN ['v'] (atomN 'p') (binN ['&'] (atomN 'q') (atomN 'r'))) =
       convert_matrix_to_cnf (binN ['v'] (atomN 'p') (binN ['&'] (atomN 'q') (atomN 'r')))) :=
  ⟨by decide, C10_single_pass_cnf _ (by decide)⟩

/-! ## The connective invariant along the pipeline -/

theorem wf_conn (v : List Char) (l r : Node) (x : Option (List Char))
    (h : WellFormedB (.mk v l r x) = true) (hnl : ¬(l = .null ∧ r = .null)) :
    v = ['A'] ∨ v = ['E'] ∨ v = ['&'] ∨ v = ['-','>'] ∨ v = ['<','-','>'] ∨
      v = ['v'] ∨ v = ['-'] := by
  simp only [WellFormedB] at h
  split_ifs at h with h1 h2 h3 h4
  · tauto
  · tauto
  · tauto
  · tauto
  · simp only [Bool.and_eq_true] at h
    exact absurd ⟨of_decide_eq_true h.1.1.2, of_decide_eq_true h.1.2⟩ hnl

theorem rb_null_iff : ∀ t : Node, remove_biconditionals t = .null ↔ t = .null := by
  intro t
  cases t with
  | null => simp [remove_biconditionals]
  | mk v l r x =>
    simp only [remove_biconditionals]
    split_ifs <;> simp

theorem NoIffConn_parts (v : List Char) (l r : Node) (x : Option (List Char))
    (h : NoIffConnB (.mk v l r x) = true) :
    NoIffConnB l = true ∧ NoIffConnB r = true ∧
    (¬(l = .null ∧ r = .null) →
      v = ['&'] ∨ v = ['v'] ∨ v = ['-'] ∨ v = ['-','>'] ∨ v = ['A'] ∨ v = ['E']) := by
  simp only [NoIffConnB, Bool.and_eq_true] at h
  refine ⟨h.1.2, h.2, fun hnl => ?_⟩
  have := h.1.1
  rw [if_neg hnl] at this
  exact of_decide_eq_true this

theorem ConnOk_parts (v : List Char) (l r : Node) (x : Option (List Char))
    (h : ConnOkB (.mk v l r x) = true) :
    ConnOkB l = true ∧ ConnOkB r = true ∧
    (¬(l = .null ∧ r = .null) →
      v = ['&'] ∨ v = ['v'] ∨ v = ['-'] ∨ v = ['A'] ∨ v = ['E']) := by
  simp only [ConnOkB, Bool.and_eq_true] at h
  refine ⟨h.1.2, h.2, fun hnl => ?_⟩
  have := h.1.1
  rw [if_neg hnl] at this
  exact of_decide_eq_true this

theorem NoIffConn_mk (v : List Char) (l r : Node) (x : Option (List Char))
    (hv : v = ['&'] ∨ v = ['v'] ∨ v = ['-'] ∨ v = ['-','>'] ∨ v = ['A'] ∨ v = ['E'])
    (h1 : NoIffConnB l = true) (h2 : NoIffConnB r = true) :
    NoIffConnB (.mk v l r x) = true := by
  simp only [NoIffConnB, Bool.and_eq_true]
  refine ⟨⟨?_, h1⟩, h2⟩
  split_ifs with h
  · rfl
  · exact decide_eq_true hv

theorem NoIffConn_leaf (v : List Char) (x : Option (List Char)) :
    NoIffConnB (.mk v .null .null x) = true := by
  simp [NoIffConnB]

theorem ConnOk_mk (v : List Char) (l r : Node) (x : Option (List Char))
    (hv : v = ['&'] ∨ v = ['v'] ∨ v = ['-'] ∨ v = ['A'] ∨ v = ['E'])
    (h1 : ConnOkB l = true) (h2 : ConnOkB r = true) :
    ConnOkB (.mk v l r x) = true := by
  simp only [ConnOkB, Bool.and_eq_true]
  refine ⟨⟨?_, h1⟩, h2⟩
  split_ifs with h
  · rfl
  · exact decide_eq_true hv

theorem ConnOk_leaf (v : List Char) (x : Option (List Char)) :
    ConnOkB (.mk v .null .null x) = true := by
  simp [ConnOkB]

theorem QLeftNull_mk (v : List Char) (l r : Node) (x : Option (List Char))
    (hv : (v = ['A'] ∨ v = ['E']) → l = .null)
    (h1 : QLeftNullB l = true) (h2 : QLeftNullB r = true) :
    QLeftNullB (.mk v l r x) = true := by
  simp only [QLeftNullB, Bool.and_eq_true]
  refine ⟨⟨?_, h1⟩, h2⟩
  split_ifs with h
  · exact decide_eq_true (hv h)
  · rfl

theorem rb_props : ∀ t : Node, WellFormedB t = true →
    NoIffConnB (remove_biconditionals t) = true ∧
    QLeftNullB (remove_biconditionals t) = true := by
  intro t
  induction t with
  | null => intro h; simp [WellFormedB] at h
  | mk v l r x ihl ihr =>
    intro h
    obtain ⟨hl, hr, hq⟩ := wf_parts v l r x h
    have hlc : NoIffConnB (remove_biconditionals l) = true ∧
        QLeftNullB (remove_biconditionals l) = true := by
      rcases hl with rfl | hl
      · exact ⟨rfl, rfl⟩
      · exact ihl hl
    have hrc : NoIffConnB (remove_biconditionals r) = true ∧
        QLeftNullB (remove_biconditionals r) = true := by
      rcases hr with rfl | hr
      · exact ⟨rfl, rfl⟩
      · exact ihr hr
    simp only [remove_biconditionals]
    by_cases h1 : v = ['A'] ∨ v = ['E']
    · rw [if_pos h1]
      have hlnull := hq h1
      subst hlnull
      refine ⟨NoIffConn_mk v .null _ x ?_ rfl hrc.1,
        QLeftNull_mk v .null _ x (fun _ => rfl) rfl hrc.2⟩
      rcases h1 with h | h
      · exact Or.inr (Or.inr (Or.inr (Or.inr (Or.inl h))))
      · exact Or.inr (Or.inr (Or.inr (Or.inr (Or.inr h))))
    · rw [if_neg h1]
      by_cases h2 : v = ['<','-','>']
      · rw [if_pos h2]
        refine ⟨?_, ?_⟩
        · exact NoIffConn_mk ['&'] _ _ none (Or.inl rfl)
            (NoIffConn_mk ['-','>'] _ _ none (Or.inr (Or.inr (Or.inr (Or.inl rfl))))
              hlc.1 hrc.1)
            (NoIffConn_mk ['-','>'] _ _ none (Or.inr (Or.inr (Or.inr (Or.inl rfl))))
              hrc.1 hlc.1)
        · exact QLeftNull_mk ['&'] _ _ none (by simp)
            (QLeftNull_mk ['-','>'] _ _ none (by simp) hlc.2 hrc.2)
            (QLeftNull_mk ['-','>'] _ _ none (by simp) hrc.2 hlc.2)
      · rw [if_neg h2]
        refine ⟨?_, QLeftNull_mk v _ _ x (fun hc => absurd hc h1) hlc.2 hrc.2⟩
        by_cases h3 : remove_biconditionals l = .null ∧ remove_biconditionals r = .null
        · obtain ⟨e1, e2⟩ := h3
          rw [e1, e2]
          exact NoIffConn_leaf v x
        · have hnl : ¬(l = .null ∧ r = .null) := by
            intro ⟨e1, e2⟩
            exact h3 ⟨by rw [e1]; rfl, by rw [e2]; rfl⟩
          have h7 := wf_conn v l r x h hnl
          refine NoIffConn_mk v _ _ x ?_ hlc.1 hrc.1
          rcases h7 with h7 | h7 | h7 | h7 | h7 | h7 | h7
          · exact Or.inr (Or.inr (Or.inr (Or.inr (Or.inl h7))))
          · exact Or.inr (Or.inr (Or.inr (Or.inr (Or.inr h7))))
          · exact Or.inl h7
          · exact Or.inr (Or.inr (Or.inr (Or.inl h7)))
          · exact absurd h7 h2
          · exact Or.inr (Or.inl h7)
          · exact Or.inr (Or.inr (Or.inl h7))

theorem ri_props : ∀ t : Node, NoIffConnB t = true → QLeftNullB t = true →
    ConnOkB (remove_implications t) = true ∧
    QLeftNullB (remove_implications t) = true := by
  intro t
  induction t with
  | null => intro _ _; exact ⟨rfl, rfl⟩
  | mk v l r x ihl ihr =>
    intro hni hql
    obtain ⟨hnl, hnr, hval⟩ := NoIffConn_parts v l r x hni
    simp only [QLeftNullB, Bool.and_eq_true] at hql
    obtain ⟨⟨hq0, hqll⟩, hqlr⟩ := hql
    obtain ⟨hcl, hql2⟩ := ihl hnl hqll
    obtain ⟨hcr, hqr2⟩ := ihr hnr hqlr
    simp only [remove_implications]
    by_cases h1 : v = ['A'] ∨ v = ['E']
    · rw [if_pos h1]
      have hlnull : l = .null := by
        rw [if_pos h1] at hq0
        exact of_decide_eq_true hq0
      subst hlnull
      refine ⟨ConnOk_mk v .null _ x ?_ rfl hcr,
        QLeftNull_mk v .null _ x (fun _ => rfl) rfl hqr2⟩
      rcases h1 with h | h
      · exact Or.inr (Or.inr (Or.inr (Or.inl h)))
      · exact Or.inr (Or.inr (Or.inr (Or.inr h)))
    · rw [if_neg h1]
      by_cases h2 : v = ['-','>']
      · rw [if_pos h2]
        refine ⟨?_, ?_⟩
        · exact ConnOk_mk ['v'] _ _ none (Or.inr (Or.inl rfl))
            (ConnOk_mk ['-'] _ _ none (Or.inr (Or.inr (Or.inl rfl))) rfl hcl) hcr
        · exact QLeftNull_mk ['v'] _ _ none (by simp)
            (QLeftNull_mk ['-'] _ _ none (by simp) rfl hql2) hqr2
      · rw [if_neg h2]
        refine ⟨?_, QLeftNull_mk v _ _ x (fun hc => absurd hc h1) hql2 hqr2⟩
        by_cases h3 : remove_implications l = .null ∧ remove_implications r = .null
        · obtain ⟨e1, e2⟩ := h3
          rw [e1, e2]
          exact ConnOk_leaf v x
        · have hnl2 : ¬(l = .null ∧ r = .null) := by
            intro ⟨e1, e2⟩
            exact h3 ⟨by rw [e1]; rfl, by rw [e2]; rfl⟩
          have h6 := hval hnl2
          refine ConnOk_mk v _ _ x ?_ hcl hcr
          rcases h6 with h6 | h6 | h6 | h6 | h6 | h6
          · exact Or.inl h6
          · exact Or.inr (Or.inl h6)
          · exact Or.inr (Or.inr (Or.inl h6))
          · exact absurd h6 h2
          · exact Or.inr (Or.inr (Or.inr (Or.inl h6)))
          · exact Or.inr (Or.inr (Or.inr (Or.inr h6)))

theorem ConnOk_leftN (n : Node) (h : ConnOkB n = true) : ConnOkB n.leftN = true := by
  cases n with
  | null => rfl
  | mk v l r x => exact (ConnOk_parts v l r x h).1

theorem ConnOk_rightN (n : Node) (h : ConnOkB n = true) : ConnOkB n.rightN = true := by
  cases n with
  | null => rfl
  | mk v l r x => exact (ConnOk_parts v l r x h).2.1

theorem ConnOk_negNode (c : Node) (h : ConnOkB c = true) :
    ConnOkB (.mk ['-'] .null c none) = true :=
  ConnOk_mk ['-'] .null c none (Or.inr (Or.inr (Or.inl rfl))) rfl h

theorem push_null_of_null : push_negations_demorgan .null = .null := rfl

theorem push_ConnOk : ∀ (k : Nat) (n : Node), n.size ≤ k → ConnOkB n = true →
    ConnOkB (push_negations_demorgan n) = true := by
  intro k
  induction k with
  | zero =>
    intro n hn _
    cases n with
    | null => rfl
    | mk v l r x => rw [size_mk] at hn; omega
  | succ k ih =>
    intro n hn hc
    cases n with
    | null => rfl
    | mk v l r x =>
      rw [size_mk] at hn
      obtain ⟨hcl, hcr, hval⟩ := ConnOk_parts v l r x hc
      by_cases hq : v = ['A'] ∨ v = ['E']
      · rw [push_eq_quant v l r x hq]
        refine ConnOk_mk v l _ x ?_ hcl (ih r (by omega) hcr)
        rcases hq with h | h
        · exact Or.inr (Or.inr (Or.inr (Or.inl h)))
        · exact Or.inr (Or.inr (Or.inr (Or.inr h)))
      · by_cases hneg : v = ['-']
        · subst hneg
          cases r with
          | null =>
            rw [push_eq_generic ['-'] l .null x hq (by simp [Node.valueO]) (by simp [Node.valueO])
              (by simp [Node.valueO]) (by simp [Node.valueO]) (by simp [Node.valueO])]
            by_cases hl0 : l = .null
            · subst hl0
              exact ConnOk_leaf ['-'] x
            · exact ConnOk_mk ['-'] _ _ x (Or.inr (Or.inr (Or.inl rfl)))
                (ih l (by omega) hcl) rfl
          | mk w rl rr rx =>
            have hsz : (Node.mk w rl rr rx).size = 1 + rl.size + rr.size := rfl
            rw [hsz] at hn
            obtain ⟨hrl, hrr, hrval⟩ := ConnOk_parts w rl rr rx hcr
            by_cases hw1 : w = ['-']
            · subst hw1
              rw [push_eq_negneg l _ x (by simp [Node.valueO])]
              exact ih (Node.mk ['-'] rl rr rx).rightN (by simp [Node.rightN]; omega)
                (by simpa [Node.rightN] using hrr)
            · by_cases hw2 : w = ['&']
              · subst hw2
                rw [push_eq_negand l _ x (by simp [Node.valueO])]
                simp only [Node.leftN, Node.rightN]
                exact ConnOk_mk ['v'] _ _ none (Or.inr (Or.inl rfl))
                  (ih (.mk ['-'] .null rl none) (by simp only [Node.size]; omega)
                    (ConnOk_negNode rl hrl))
                  (ih (.mk ['-'] .null rr none) (by simp only [Node.size]; omega)
                    (ConnOk_negNode rr hrr))
              · by_cases hw3 : w = ['v']
                · subst hw3
                  rw [push_eq_negor l _ x (by simp [Node.valueO])]
                  simp only [Node.leftN, Node.rightN]
                  exact ConnOk_mk ['&'] _ _ none (Or.inl rfl)
                    (ih (.mk ['-'] .null rl none) (by simp only [Node.size]; omega)
                      (ConnOk_negNode rl hrl))
                    (ih (.mk ['-'] .null rr none) (by simp only [Node.size]; omega)
                      (ConnOk_negNode rr hrr))
                · by_cases hw4 : w = ['A']
                  · subst hw4
                    rw [push_eq_negall l _ x (by simp [Node.valueO])]
                    simp only [Node.rightN, Node.varO]
                    exact ConnOk_mk ['E'] _ _ rx (Or.inr (Or.inr (Or.inr (Or.inr rfl)))) rfl
                      (ih (.mk ['-'] .null rr none) (by simp only [Node.size]; omega)
                        (ConnOk_negNode rr hrr))
                  · by_cases hw5 : w = ['E']
                    · subst hw5
                      rw [push_eq_negex l _ x (by simp [Node.valueO])]
                      simp only [Node.rightN, Node.varO]
                      exact ConnOk_mk ['A'] _ _ rx (Or.inr (Or.inr (Or.inr (Or.inl rfl)))) rfl
                        (ih (.mk ['-'] .null rr none) (by simp only [Node.size]; omega)
                          (ConnOk_negNode rr hrr))
                    · rw [push_eq_generic ['-'] l _ x hq
                        (by simp [Node.valueO]; exact fun h => absurd h hw1)
                        (by simp [Node.valueO]; exact fun h => absurd h hw2)
                        (by simp [Node.valueO]; exact fun h => absurd h hw3)
                        (by simp [Node.valueO]; exact fun h => absurd h hw4)
                        (by simp [Node.valueO]; exact fun h => absurd h hw5)]
                      exact ConnOk_mk ['-'] _ _ x (Or.inr (Or.inr (Or.inl rfl)))
                        (ih l (by omega) hcl)
                        (ih (Node.mk w rl rr rx) (by rw [hsz]; omega) hcr)
        · rw [push_eq_generic v l r x hq (by intro h; exact hneg h.1) (by intro h; exact hneg h.1)
            (by intro h; exact hneg h.1) (by intro h; exact hneg h.1)
            (by intro h; exact hneg h.1)]
          by_cases hlf : l = .null ∧ r = .null
          · obtain ⟨rfl, rfl⟩ := hlf
            exact ConnOk_leaf v x
          · exact ConnOk_mk v _ _ x (hval hlf) (ih l (by omega) hcl) (ih r (by omega) hcr)

theorem renameEverywhere_ConnOk (old nw : List Char) :
    ∀ n : Node, ConnOkB n = true → ConnOkB (renameEverywhere n old nw) = true := by
  intro n
  induction n with
  | null => intro _; rfl
  | mk v l r x ihl ihr =>
    intro hc
    obtain ⟨hcl, hcr, hval⟩ := ConnOk_parts v l r x hc
    by_cases hq : v = ['A'] ∨ v = ['E']
    · have hv5 : v = ['&'] ∨ v = ['v'] ∨ v = ['-'] ∨ v = ['A'] ∨ v = ['E'] := by
        rcases hq with h | h
        · exact Or.inr (Or.inr (Or.inr (Or.inl h)))
        · exact Or.inr (Or.inr (Or.inr (Or.inr h)))
      cases x with
      | some s =>
        simp only [renameEverywhere, if_pos hq]
        by_cases hs : s = old
        · rw [if_pos hs]
          exact ConnOk_mk v .null _ (some nw) hv5 rfl (ihr hcr)
        · rw [if_neg hs]
          exact ConnOk_mk v .null _ (some s) hv5 rfl (ihr hcr)
      | none =>
        simp only [renameEverywhere, if_pos hq]
        exact ConnOk_mk v .null _ none hv5 rfl (ihr hcr)
    · simp only [renameEverywhere, if_neg hq]
      by_cases hlf : l = .null ∧ r = .null ∧ v = old ∧ old.length = 1
      · rw [if_pos hlf]
        exact ConnOk_leaf nw none
      · rw [if_neg hlf]
        by_cases h0 : l = .null ∧ r = .null
        · obtain ⟨rfl, rfl⟩ := h0
          exact ConnOk_leaf v none
        · exact ConnOk_mk v _ _ none (hval h0) (ihl hcl) (ihr hcr)

theorem standardize_ConnOk :
    ∀ (n : Node) (used : List (List Char)), ConnOkB n = true →
    ConnOkB (standardizeAux n used) = true := by
  intro n
  induction n with
  | null => intro used _; rfl
  | mk v l r x ihl ihr =>
    intro used hc
    obtain ⟨hcl, hcr, hval⟩ := ConnOk_parts v l r x hc
    by_cases hq : v = ['A'] ∨ v = ['E']
    · have hv5 : v = ['&'] ∨ v = ['v'] ∨ v = ['-'] ∨ v = ['A'] ∨ v = ['E'] := by
        rcases hq with h | h
        · exact Or.inr (Or.inr (Or.inr (Or.inl h)))
        · exact Or.inr (Or.inr (Or.inr (Or.inr h)))
      cases x with
      | some s =>
        simp only [standardizeAux, if_pos hq]
        by_cases hne : freshVar s used ≠ s
        · rw [if_pos hne]
          refine ConnOk_mk v .null _ (some (freshVar s used)) hv5 rfl ?_
          rw [rename_eq_renameEverywhere]
          exact renameEverywhere_ConnOk s (freshVar s used) _ (ihr (freshVar s used :: used) hcr)
        · rw [if_neg hne]
          exact ConnOk_mk v .null _ (some (freshVar s used)) hv5 rfl
            (ihr (freshVar s used :: used) hcr)
      | none =>
        simp only [standardizeAux, if_pos hq]
        exact ConnOk_mk v .null _ (some (freshVar ['v'] used)) hv5 rfl
          (ihr (freshVar ['v'] used :: used) hcr)
    · simp only [standardizeAux, if_neg hq]
      by_cases h0 : l = .null ∧ r = .null
      · obtain ⟨rfl, rfl⟩ := h0
        show ConnOkB (.mk v .null .null x) = true
        exact ConnOk_leaf v x
      · exact ConnOk_mk v _ _ x (hval h0) (ihl used hcl) (ihr used hcr)

theorem extract_pairs_AE : ∀ (t : Node) (p : List Char × Option (List Char)),
    p ∈ (extract_quantifiers t).1 → p.1 = ['A'] ∨ p.1 = ['E'] := by
  intro t
  induction t with
  | null => intro p hp; simp [extract_quantifiers] at hp
  | mk v l r x ihl ihr =>
    intro p hp
    by_cases hq : v = ['A'] ∨ v = ['E']
    · simp only [extract_quantifiers, if_pos hq, List.mem_cons] at hp
      rcases hp with rfl | hp
      · exact hq
      · exact ihr p hp
    · by_cases hb : v = ['&'] ∨ v = ['v']
      · simp only [extract_quantifiers, if_neg hq, if_pos hb, List.mem_append] at hp
        rcases hp with hp | hp
        · exact ihl p hp
        · exact ihr p hp
      · by_cases hn : v = ['-']
        · simp only [extract_quantifiers, if_neg hq, if_neg hb, if_pos hn] at hp
          exact ihr p hp
        · simp only [extract_quantifiers, if_neg hq, if_neg hb, if_neg hn] at hp
          simp at hp

theorem extract_NoQuant : ∀ t : Node, ConnOkB t = true →
    NoQuantB (extract_quantifiers t).2 = true := by
  intro t
  induction t with
  | null => intro _; rfl
  | mk v l r x ihl ihr =>
    intro hc
    obtain ⟨hcl, hcr, hval⟩ := ConnOk_parts v l r x hc
    by_cases hq : v = ['A'] ∨ v = ['E']
    · simp only [extract_quantifiers, if_pos hq]
      exact ihr hcr
    · by_cases hb : v = ['&'] ∨ v = ['v']
      · simp only [extract_quantifiers, if_neg hq, if_pos hb]
        simp only [NoQuantB, Bool.and_eq_true, decide_eq_true_eq]
        refine ⟨⟨⟨?_, ?_⟩, ihl hcl⟩, ihr hcr⟩
        · rcases hb with rfl | rfl <;> decide
        · rcases hb with rfl | rfl <;> decide
      · by_cases hn : v = ['-']
        · simp only [extract_quantifiers, if_neg hq, if_neg hb, if_pos hn]
          simp only [NoQuantB, Bool.and_eq_true, decide_eq_true_eq]
          exact ⟨⟨⟨by decide, by decide⟩, trivial⟩, ihr hcr⟩
        · simp only [extract_quantifiers, if_neg hq, if_neg hb, if_neg hn]
          have h0 : l = .null ∧ r = .null := by
            by_contra h0
            rcases hval h0 with h | h | h | h | h
            · exact hb (Or.inl h)
            · exact hb (Or.inr h)
            · exact hn h
            · exact hq (Or.inl h)
            · exact hq (Or.inr h)
          obtain ⟨rfl, rfl⟩ := h0
          simp only [NoQuantB, Bool.and_eq_true, decide_eq_true_eq]
          refine ⟨⟨⟨?_, ?_⟩, trivial⟩, trivial⟩
          · intro h; exact hq (Or.inl h)
          · intro h; exact hq (Or.inr h)

theorem dist_ne_null (n : Node) (h : n ≠ .null) : distribute_or_over_and n ≠ .null := by
  cases n with
  | null => exact absurd rfl h
  | mk v l r x =>
    by_cases hq : v = ['A'] ∨ v = ['E']
    · rw [dist_quant v l r x hq]; simp
    · by_cases hv : v = ['v']
      · subst hv
        rw [dist_or_unfold l r x]
        split_ifs <;> simp
      · rw [dist_generic v l r x hq hv]; simp

theorem prenex_base (m : Node) (hNQ : NoQuantB m = true) (hNV : NoVAB m = true)
    (hne : m ≠ .null) : IsPrenexB m = true := by
  cases m with
  | null => exact absurd rfl hne
  | mk v l r x =>
    have hv : v ≠ ['A'] ∧ v ≠ ['E'] := by
      simp only [NoQuantB, Bool.and_eq_true, decide_eq_true_eq] at hNQ
      exact hNQ.1.1
    simp only [IsPrenexB]
    rw [if_neg (by intro h; rcases h with h | h; exact hv.1 h; exact hv.2 h)]
    simp [hNQ, hNV]

theorem foldl_prenex :
    ∀ (l : List (List Char × Option (List Char))) (m : Node),
    (∀ p ∈ l, p.1 = ['A'] ∨ p.1 = ['E']) → IsPrenexB m = true →
    IsPrenexB (l.foldl (fun node qv => .mk qv.1 .null node qv.2) m) = true := by
  intro l
  induction l with
  | nil => intro m _ hm; exact hm
  | cons a l ih =>
    intro m hl hm
    rw [List.foldl_cons]
    refine ih _ (fun p hp => hl p (List.mem_cons_of_mem a hp)) ?_
    have ha := hl a (List.mem_cons_self a l)
    simp only [IsPrenexB, if_pos ha, Bool.and_eq_true, decide_eq_true_eq]
    exact ⟨trivial, hm⟩

theorem build_pcnf_prenex (qs : List (List Char × Option (List Char))) (m : Node)
    (hq : ∀ p ∈ qs, p.1 = ['A'] ∨ p.1 = ['E']) (hm : IsPrenexB m = true) :
    IsPrenexB (build_pcnf qs m) = true :=
  foldl_prenex qs.reverse m (fun p hp => hq p (List.mem_reverse.mp hp)) hm

theorem convert_to_pcnf_eq (root : Node) :
    convert_to_pcnf root =
      build_pcnf (extract_quantifiers (standardize_variables (push_negations_demorgan
        (remove_implications (remove_biconditionals root))))).1
        (convert_matrix_to_cnf
          (if (extract_quantifiers (standardize_variables (push_negations_demorgan
            (remove_implications (remove_biconditionals root))))).2 = .null
           then .mk ['a'] .null .null none
           else (extract_quantifiers (standardize_variables (push_negations_demorgan
             (remove_implications (remove_biconditionals root))))).2)) := rfl

theorem matrix_cnf_prenex (m : Node) (hNQ : NoQuantB m = true) (hne : m ≠ .null) :
    IsPrenexB (convert_matrix_to_cnf m) = true := by
  have hd := dist_NoVA (dW m) m le_rfl hNQ
  have hid := dist_id (dW (distribute_or_over_and m)) (distribute_or_over_and m) le_rfl hd.1
  have h100 : convert_matrix_to_cnf m = distribute_or_over_and m := cnfLoop_eq_dist m hid 98
  rw [h100]
  exact prenex_base (distribute_or_over_and m) hd.2.1 hd.1 (dist_ne_null m hne)

theorem pcnf_assemble (ast4 : Node) (hs : ConnOkB ast4 = true) :
    IsPrenexB (build_pcnf (extract_quantifiers ast4).1 (convert_matrix_to_cnf
      (if (extract_quantifiers ast4).2 = .null then .mk ['a'] .null .null none
       else (extract_quantifiers ast4).2))) = true := by
  refine build_pcnf_prenex (extract_quantifiers ast4).1 _ (extract_pairs_AE ast4) ?_
  by_cases h0 : (extract_quantifiers ast4).2 = .null
  · rw [if_pos h0]
    exact matrix_cnf_prenex (.mk ['a'] .null .null none) (by decide) (by simp)
  · rw [if_neg h0]
    exact matrix_cnf_prenex (extract_quantifiers ast4).2 (extract_NoQuant ast4 hs) h0

/-- C1: for every well-formed input tree, `convert_to_pcnf` returns a tree in
prenex form: the quantifiers form an unbroken chain from the root (each with
no left child), and the quantifier-free matrix below contains no `v` node
with an `&` node as an immediate child. -/
theorem C1_convert_to_pcnf_prenex (t : Node) (h : WellFormedB t = true) :
    IsPrenexB (convert_to_pcnf t) = true := by
  obtain ⟨hni, hql⟩ := rb_props t h
  obtain ⟨hco, _⟩ := ri_props (remove_biconditionals t) hni hql
  have hp : ConnOkB (push_negations_demorgan (remove_implications
      (remove_biconditionals t))) = true :=
    push_ConnOk (remove_implications (remove_biconditionals t)).size
      (remove_implications (remove_biconditionals t)) le_rfl hco
  have hs : ConnOkB (standardize_variables (push_negations_demorgan
      (remove_implications (remove_biconditionals t)))) = true :=
    standardize_ConnOk (push_negations_demorgan (remove_implications
      (remove_biconditionals t))) [] hp
  rw [convert_to_pcnf_eq]
  exact pcnf_assemble (standardize_variables (push_negations_demorgan
    (remove_implications (remove_biconditionals t)))) hs

/-- Witness for C1 at the well-formed input `(Ax (p -> q))`. -/
theorem C1_witness :
    WellFormedB (quantN 'A' 'x' (binN ['-', '>'] (atomN 'p') (atomN 'q'))) = true ∧
    IsPrenexB (convert_to_pcnf (quantN 'A' 'x'
      (binN ['-', '>'] (atomN 'p') (atomN 'q')))) = true :=
  ⟨by decide, C1_convert_to_pcnf_prenex _ (by decide)⟩

theorem parseF_succ (fuel : Nat) (e0 : List Char) :
    parseF (fuel + 1) e0 = parseStep (parseF fuel) e0 := rfl

theorem singleChar_notSpace (c : Char) (h1 : 'a' ≤ c) : isPySpace c = false := by
  have hne : ∀ d : Char, ¬ ('a' ≤ d) → c ≠ d := fun d hd hc => hd (hc ▸ h1)
  simp only [isPySpace, Bool.or_eq_false_iff, decide_eq_false_iff_not]
  exact ⟨⟨⟨⟨⟨hne ' ' (by decide), hne '\t' (by decide)⟩, hne '\n' (by decide)⟩,
    hne '\r' (by decide)⟩, hne '\x0b' (by decide)⟩, hne '\x0c' (by decide)⟩

theorem trim_single (c : Char) (h : isPySpace c = false) : trim [c] = [c] := by
  simp [trim, h]

theorem findTopOp_single (c : Char) (h1 : 'a' ≤ c) (h3 : c ≠ 'v') :
    findTopOp opClasses [c] = none := by
  have hne : ∀ d : Char, ¬ ('a' ≤ d) → c ≠ d := fun d hd hc => hd (hc ▸ h1)
  have hrp : c ≠ ')' := hne ')' (by decide)
  have hlp : c ≠ '(' := hne '(' (by decide)
  have hamp : c ≠ '&' := hne '&' (by decide)
  have p1 : (['<','-','>'] : List Char).isPrefixOf [c] = false := by
    simp [List.isPrefixOf]
  have p2 : (['-','>'] : List Char).isPrefixOf [c] = false := by
    simp [List.isPrefixOf]
  have p3 : (['v'] : List Char).isPrefixOf [c] = false := by
    simp only [List.isPrefixOf, Bool.and_true, beq_eq_false_iff_ne, ne_eq]
    exact fun hh => h3 hh.symm
  have p4 : (['&'] : List Char).isPrefixOf [c] = false := by
    simp only [List.isPrefixOf, Bool.and_true, beq_eq_false_iff_ne, ne_eq]
    exact fun hh => hamp hh.symm
  simp [findTopOp, opClasses, rscan, hrp, hlp, List.find?, p1, p2, p3, p4]

/-- C6 (amended): a single-letter input parses to the corresponding atom for
every lowercase letter EXCEPT `v` — on `v` the disjunction scan fires first
and the parse fails (see the counterexample). -/
theorem C6_single_letter_atom (c : Char) (h1 : 'a' ≤ c) (h2 : c ≤ 'z') (h3 : c ≠ 'v') :
    build_ast_from_expression [c] = .ok (.mk [c] .null .null none) := by
  have hne : ∀ d : Char, ¬ ('a' ≤ d) → c ≠ d := fun d hd hc => hd (hc ▸ h1)
  have hsp : isPySpace c = false := singleChar_notSpace c h1
  have htrim : trim [c] = [c] := trim_single c hsp
  have hlp : c ≠ '(' := hne '(' (by decide)
  have hmq : matchQuant [c] = none := rfl
  have hft : findTopOp opClasses [c] = none := findTopOp_single c h1 h3
  show parseF (1 + 1) [c] = _
  rw [parseF_succ]
  simp only [parseStep, htrim, hmq, hft]
  rw [if_neg (by intro hh; exact hlp (by simpa using hh.1))]
  rw [if_neg (by simp)]
  rw [if_pos ⟨h1, h2⟩]
  rfl

/-- Witness for C6 at the letter `a`. -/
theorem C6_witness :
    'a' ≤ 'a' ∧ 'a' ≤ 'z' ∧ 'a' ≠ 'v' ∧
    build_ast_from_expression ['a'] = .ok (.mk ['a'] .null .null none) :=
  ⟨by decide, by decide, by decide, C6_single_letter_atom 'a' (by decide) (by decide) (by decide)⟩

theorem parseF_no_syn : ∀ (fuel : Nat) (e0 : List Char),
    raisesSynErr (parseF fuel e0) = false := by
  intro fuel
  induction fuel with
  | zero => intro e0; rfl
  | succ f ih =>
    intro e0
    rw [parseF_succ]
    simp only [parseStep]
    by_cases hc1 : (trim e0).head? = some '(' ∧ (trim e0).getLast? = some ')' ∧
        parenScan (((trim e0).drop 1).dropLast) 0 = true
    · rw [if_pos hc1]
      exact ih _
    · rw [if_neg hc1]
      cases hmq : matchQuant (trim e0) with
      | some qvb =>
        simp only [hmq]
        cases hb : parseF f qvb.2.2 with
        | error ex =>
          have hx := ih qvb.2.2
          rw [hb] at hx
          simpa [Except.bind] using hx
        | ok b => simp [Except.bind, hb, raisesSynErr]
      | none =>
        simp only [hmq]
        cases hft : findTopOp opClasses (trim e0) with
        | some lor =>
          simp only [hft]
          cases hl : parseF f lor.1 with
          | error ex =>
            have hx := ih lor.1
            rw [hl] at hx
            simpa [Except.bind] using hx
          | ok l =>
            cases hr : parseF f lor.2.2 with
            | error ex =>
              have hx := ih lor.2.2
              rw [hr] at hx
              simpa [Except.bind, hl] using hx
            | ok r => rfl
        | none =>
          by_cases hminus : (trim e0).take 2 = ['-', ' ']
          · rw [if_pos hminus]
            cases hr : parseF f ((trim e0).drop 2) with
            | error ex =>
              have hx := ih ((trim e0).drop 2)
              rw [hr] at hx
              simpa [Except.bind] using hx
            | ok r => simp [Except.bind, hr, raisesSynErr]
          · rw [if_neg hminus]
            rcases htr : trim e0 with _ | ⟨c, _ | ⟨d, rest⟩⟩
            · simp only [htr]; rfl
            · simp only [htr]
              split_ifs <;> rfl
            · simp only [htr]; rfl

/-- C7 (amended): malformed inputs are rejected with `ValueError`, never with
`SyntaxError` — the parser has no `SyntaxError` path at all — and the listed
edge cases (empty input after stripping parentheses, mismatched parentheses,
a multi-character token where a single letter is required, and a quantifier
with no following body) each raise `ValueError` carrying the offending
substring. -/
theorem C7_value_error_not_syn :
    (∀ s : List Char, raisesSynErr (build_ast_from_expression s) = false) ∧
    build_ast_from_expression ('(' :: ')' :: []) =
      .error (.valueError (invalidMsg [])) ∧
    build_ast_from_expression
        ('(' :: '(' :: 'a' :: ' ' :: '&' :: ' ' :: 'b' :: ')' :: []) =
      .error (.valueError (invalidMsg
        ('(' :: '(' :: 'a' :: ' ' :: '&' :: ' ' :: 'b' :: ')' :: []))) ∧
    build_ast_from_expression ('(' :: 'a' :: 'b' :: ')' :: []) =
      .error (.valueError (invalidMsg ('a' :: 'b' :: []))) ∧
    build_ast_from_expression ('(' :: 'A' :: 'x' :: ')' :: []) =
      .error (.valueError (invalidMsg ('A' :: 'x' :: []))) :=
  ⟨fun s => parseF_no_syn (s.length + 1) s, by decide, by decide, by decide, by decide⟩

theorem bal_nil : bal [] = 0 := rfl

theorem bal_cons (c : Char) (l : List Char) : bal (c :: l) = charBal c + bal l := by
  simp only [bal, charBal, List.count_cons]
  by_cases h1 : c = '('
  · subst h1
    simp
    push_cast
    ring
  · by_cases h2 : c = ')'
    · subst h2
      simp [h1]
      push_cast
      ring
    · simp [h1, h2]

theorem bal_append (l1 l2 : List Char) : bal (l1 ++ l2) = bal l1 + bal l2 := by
  simp only [bal, List.count_append]
  push_cast
  ring

theorem bal_reverse (l : List Char) : bal l.reverse = bal l := by
  simp [bal, List.count_reverse]

theorem bal_singleton (c : Char) : bal [c] = charBal c := by
  rw [bal_cons, bal_nil, add_zero]

theorem parenScan_iff : ∀ (l : List Char) (lvl : Int), 0 ≤ lvl →
    (parenScan l lvl = true ↔
      ((∀ p q, l = p ++ q → 0 ≤ lvl + bal p) ∧ lvl + bal l = 0)) := by
  intro l
  induction l with
  | nil =>
    intro lvl h0
    show (decide (lvl = 0) = true) ↔ _
    constructor
    · intro h
      have h1 := of_decide_eq_true h
      refine ⟨?_, ?_⟩
      · intro p q hpq
        have hp : p = [] := by
          cases p with
          | nil => rfl
          | cons a as => simp at hpq
        subst hp
        rw [bal_nil, add_zero]
        exact h0
      · rw [bal_nil]; omega
    · rintro ⟨_, h2⟩
      rw [bal_nil] at h2
      exact decide_eq_true (by omega)
  | cons c rest ih =>
    intro lvl h0
    have hlv : (if c = '(' then lvl + 1 else if c = ')' then lvl - 1 else lvl) =
        lvl + charBal c := by
      simp only [charBal]
      split_ifs <;> ring
    simp only [parenScan, hlv]
    by_cases hneg : lvl + charBal c < 0
    · rw [if_pos hneg]
      constructor
      · intro h; simp at h
      · rintro ⟨h1, _⟩
        have h2 := h1 [c] rest rfl
        rw [bal_singleton] at h2
        omega
    · rw [if_neg hneg]
      push_neg at hneg
      rw [ih (lvl + charBal c) hneg]
      constructor
      · rintro ⟨h1, h2⟩
        refine ⟨?_, ?_⟩
        · intro p q hpq
          cases p with
          | nil => rw [bal_nil]; omega
          | cons a p' =>
            rw [List.cons_append] at hpq
            injection hpq with ha hrest
            subst ha
            have := h1 p' q hrest
            rw [bal_cons]
            omega
        · rw [bal_cons]; omega
      · rintro ⟨h1, h2⟩
        refine ⟨?_, ?_⟩
        · intro p q hpq
          have := h1 (c :: p) q (by rw [List.cons_append, hpq])
          rw [bal_cons] at this
          omega
        · rw [bal_cons] at h2; omega

theorem rscan_level_eq (c : Char) (lvl : Int) :
    (if c = ')' then lvl + 1 else if c = '(' then lvl - 1 else lvl) = lvl - charBal c := by
  simp only [charBal]
  by_cases h1 : c = '('
  · simp [h1]
  · by_cases h2 : c = ')' <;> simp [h1, h2] <;> ring

theorem rscan_nil (ops : List (List Char)) (suffix : List Char) (lvl : Int) :
    rscan ops [] suffix lvl = none := rfl

theorem rscan_step (ops : List (List Char)) (c : Char) (rf suffix : List Char) (lvl : Int) :
    rscan ops (c :: rf) suffix lvl =
      (if lvl - charBal c = 0 then
        match ops.find? (fun op => op.isPrefixOf (c :: suffix)) with
        | some op => some (rf.reverse, op, (c :: suffix).drop op.length)
        | none => rscan ops rf (c :: suffix) (lvl - charBal c)
      else rscan ops rf (c :: suffix) (lvl - charBal c)) := by
  simp only [rscan, rscan_level_eq]

theorem rscan_skip_one (ops : List (List Char)) (c : Char) (rf suffix : List Char) (lvl : Int)
    (h : (lvl - charBal c ≠ 0) ∨
      ops.find? (fun op => op.isPrefixOf (c :: suffix)) = none) :
    rscan ops (c :: rf) suffix lvl = rscan ops rf (c :: suffix) (lvl - charBal c) := by
  rw [rscan_step]
  by_cases h0 : lvl - charBal c = 0
  · rw [if_pos h0]
    rcases h with h | h
    · exact absurd h0 h
    · rw [h]
  · rw [if_neg h0]

theorem rscan_hit (ops : List (List Char)) (c : Char) (rf suffix : List Char) (lvl : Int)
    (op : List Char) (h0 : lvl - charBal c = 0)
    (hfind : ops.find? (fun o => o.isPrefixOf (c :: suffix)) = some op) :
    rscan ops (c :: rf) suffix lvl =
      some (rf.reverse, op, (c :: suffix).drop op.length) := by
  rw [rscan_step, if_pos h0, hfind]

theorem rscan_skip (ops : List (List Char)) :
    ∀ (rseg rest suffix : List Char) (lvl : Int),
    (∀ rp c rq, rseg = rp ++ c :: rq →
      (lvl - bal rp - charBal c ≠ 0) ∨
      ops.find? (fun op => op.isPrefixOf (c :: (rp.reverse ++ suffix))) = none) →
    rscan ops (rseg ++ rest) suffix lvl =
      rscan ops rest (rseg.reverse ++ suffix) (lvl - bal rseg) := by
  intro rseg
  induction rseg with
  | nil =>
    intro rest suffix lvl _
    simp [bal_nil]
  | cons c rq ih =>
    intro rest suffix lvl h
    rw [List.cons_append, rscan_skip_one]
    · have hstep := ih rest (c :: suffix) (lvl - charBal c) ?_
      · rw [hstep, List.reverse_cons, List.append_assoc, List.singleton_append, bal_cons]
        congr 1
        ring
      · intro rp' c' rq' hsplit
        have hfull : c :: rq = (c :: rp') ++ c' :: rq' := by rw [hsplit]; rfl
        rcases h (c :: rp') c' rq' hfull with h1 | h1
        · refine Or.inl ?_
          rw [bal_cons] at h1
          intro hz
          exact h1 (by linarith)
        · refine Or.inr ?_
          rw [List.reverse_cons, List.append_assoc, List.singleton_append] at h1
          exact h1
    · have h0 := h [] c rq rfl
      rw [bal_nil, List.reverse_nil, List.nil_append] at h0
      simpa using h0

theorem isLowerAZ_bounds (c : Char) (h : isLowerAZ c = true) : 'a' ≤ c ∧ c ≤ 'z' := by
  simp only [isLowerAZ, Bool.and_eq_true, decide_eq_true_eq] at h
  exact h

theorem lower_ne_all (c : Char) (h : 'a' ≤ c) :
    c ≠ '(' ∧ c ≠ ')' ∧ c ≠ ' ' ∧ c ≠ '-' ∧ c ≠ '<' ∧ c ≠ '>' ∧ c ≠ '&' ∧
    c ≠ 'A' ∧ c ≠ 'E' := by
  have hne : ∀ d : Char, ¬ ('a' ≤ d) → c ≠ d := fun d hd hc => hd (hc ▸ h)
  exact ⟨hne '(' (by decide), hne ')' (by decide), hne ' ' (by decide),
    hne '-' (by decide), hne '<' (by decide), hne '>' (by decide),
    hne '&' (by decide), hne 'A' (by decide), hne 'E' (by decide)⟩

theorem charBal_zero (c : Char) (h1 : c ≠ '(') (h2 : c ≠ ')') : charBal c = 0 := by
  simp [charBal, h1, h2]

theorem shape_bal (s : List Char) (hs : RenderShape s) : bal s = 0 := by
  rcases hs with ⟨c, rfl, hlc, _⟩ | ⟨mid, rfl, hbal, _⟩
  · obtain ⟨h1, _⟩ := isLowerAZ_bounds c hlc
    obtain ⟨hp, hq, _⟩ := lower_ne_all c h1
    rw [bal_singleton, charBal_zero c hp hq]
  · rw [bal_append, bal_cons, bal_singleton, hbal]
    simp [charBal]

theorem shape_ne_nil (s : List Char) (hs : RenderShape s) : s ≠ [] := by
  rcases hs with ⟨c, rfl, _, _⟩ | ⟨mid, rfl, _, _⟩ <;> simp

theorem rev_split (s rp : List Char) (c : Char) (rq : List Char)
    (h : s.reverse = rp ++ c :: rq) : s = rq.reverse ++ c :: rp.reverse := by
  have := congrArg List.reverse h
  rw [List.reverse_reverse, List.reverse_append, List.reverse_cons, List.append_assoc,
    List.singleton_append] at this
  exact this

theorem shape_skip (s : List Char) (hs : RenderShape s) (ops : List (List Char))
    (h1 : ∀ z, ops.find? (fun op => op.isPrefixOf ('(' :: z)) = none)
    (h2 : ∀ c, s = [c] → ∀ z, ops.find? (fun op => op.isPrefixOf (c :: z)) = none) :
    ∀ (rest suffix : List Char) (lvl : Int), 0 ≤ lvl →
    rscan ops (s.reverse ++ rest) suffix lvl = rscan ops rest (s ++ suffix) lvl := by
  intro rest suffix lvl hlvl
  have hmain := rscan_skip ops s.reverse rest suffix lvl ?_
  · rw [hmain, List.reverse_reverse, bal_reverse, shape_bal s hs, sub_zero]
  · intro rp c rq hsplit
    have hfwd := rev_split s rp c rq hsplit
    rcases hs with ⟨c0, hc0, hlc, _⟩ | ⟨mid, hmid, hbal, hpre⟩
    · rw [hc0] at hfwd
      cases hq : rq.reverse with
      | nil =>
        rw [hq, List.nil_append] at hfwd
        injection hfwd with hcc hrp
        refine Or.inr ?_
        rw [← hrp, List.nil_append]
        exact h2 c (hcc ▸ hc0) suffix
      | cons a as =>
        rw [hq] at hfwd
        simp at hfwd
    · rw [hmid] at hfwd
      cases hq : rq.reverse with
      | nil =>
        rw [hq, List.nil_append] at hfwd
        injection hfwd with hcc hrp
        refine Or.inr ?_
        rw [← hcc]
        exact h1 (rp.reverse ++ suffix)
      | cons a pre' =>
        rw [hq, List.cons_append] at hfwd
        injection hfwd with ha hrest
        rcases List.eq_nil_or_concat rp.reverse with hpost | ⟨post', d, hpost⟩
        · rw [hpost] at hrest
          obtain ⟨hm, hcd⟩ := List.append_inj' hrest (by simp)
          injection hcd with hc' _
          refine Or.inl ?_
          have hrp0 : rp = [] := by
            have := congrArg List.reverse hpost
            rwa [List.reverse_reverse, List.reverse_nil] at this
          rw [hrp0, bal_nil, ← hc']
          simp [charBal]
          omega
        · rw [hpost] at hrest
          simp only [List.concat_eq_append, List.append_eq] at hrest hpost
          have hassoc : pre' ++ c :: (post' ++ [d]) = (pre' ++ c :: post') ++ [d] := by
            simp
          rw [hassoc] at hrest
          obtain ⟨hm, hcd⟩ := List.append_inj' hrest (by simp)
          injection hcd with hd' _
          refine Or.inl ?_
          have hbalrp : bal rp = bal post' - 1 := by
            rw [← bal_reverse rp, hpost, ← hd']
            rw [bal_append, bal_singleton]
            simp [charBal]
            ring
          have hsfx : 0 ≤ bal pre' := hpre pre' (c :: post') hm
          have hcp : charBal c + bal post' = bal (c :: post') := (bal_cons c post').symm
          have hmid2 : bal pre' + bal (c :: post') = 0 := by
            rw [← bal_append, ← hm, hbal]
          rw [hbalrp]
          omega


theorem trim_cons_space (l : List Char) : trim (' ' :: l) = trim l := by
  unfold trim
  rw [List.dropWhile_cons]
  simp [isPySpace]

theorem trim_concat_space (l : List Char) : trim (l ++ [' ']) = trim l := by
  unfold trim
  rw [List.dropWhile_append]
  by_cases h : (l.dropWhile isPySpace).isEmpty
  · rw [if_pos h]
    have h0 : l.dropWhile isPySpace = [] := by simpa [List.isEmpty_iff] using h
    rw [h0]
    have : ([' '] : List Char).dropWhile isPySpace = [] := by decide
    rw [this]
  · rw [if_neg h]
    rw [List.reverse_append]
    have : (([' '] : List Char).reverse) = [' '] := rfl
    rw [this, List.singleton_append, List.dropWhile_cons]
    simp [isPySpace]

theorem parseF_trim_congr (fuel : Nat) (a b : List Char) (h : trim a = trim b) :
    parseF fuel a = parseF fuel b := by
  cases fuel with
  | zero => rfl
  | succ f => rw [parseF_succ, parseF_succ]; simp only [parseStep, h]

theorem balPrefixOk_nil : balPrefixOk [] := by
  intro p q hpq
  have hp : p = [] := by
    cases p with
    | nil => rfl
    | cons a as => simp at hpq
  rw [hp, bal_nil]

theorem balPrefixOk_cons (c : Char) (hc : charBal c = 0) (l : List Char)
    (h : balPrefixOk l) : balPrefixOk (c :: l) := by
  intro p q hpq
  cases p with
  | nil => rw [bal_nil]
  | cons a p' =>
    rw [List.cons_append] at hpq
    injection hpq with ha hl
    subst ha
    rw [bal_cons, hc, zero_add]
    exact h p' q hl

theorem balPrefixOk_append (l1 l2 : List Char) (h1 : balPrefixOk l1) (hbal1 : bal l1 = 0)
    (h2 : balPrefixOk l2) : balPrefixOk (l1 ++ l2) := by
  intro p q hpq
  rcases List.append_eq_append_iff.mp hpq with ⟨w, hpw, hl2⟩ | ⟨w, hl1, hq⟩
  · rw [hpw, bal_append, hbal1, zero_add]
    exact h2 w q hl2
  · exact h1 p w hl1

theorem zero_chars_bal (l : List Char) (h : ∀ c ∈ l, charBal c = 0) :
    bal l = 0 ∧ balPrefixOk l := by
  induction l with
  | nil => exact ⟨bal_nil, balPrefixOk_nil⟩
  | cons c cs ih =>
    have hc := h c (List.mem_cons_self c cs)
    obtain ⟨hb, hp⟩ := ih (fun d hd => h d (List.mem_cons_of_mem c hd))
    constructor
    · rw [bal_cons, hc, hb, add_zero]
    · exact balPrefixOk_cons c hc cs hp

theorem shape_balPrefixOk (s : List Char) (hs : RenderShape s) : balPrefixOk s := by
  rcases hs with ⟨c, rfl, hlc, _⟩ | ⟨mid, rfl, hbal, hpre⟩
  · obtain ⟨h1, _⟩ := isLowerAZ_bounds c hlc
    obtain ⟨hp, hq, _⟩ := lower_ne_all c h1
    refine (zero_chars_bal [c] ?_).2
    intro d hd
    simp at hd
    subst hd
    exact charBal_zero _ hp hq
  · intro p q hpq
    cases p with
    | nil => rw [bal_nil]
    | cons a p' =>
      rw [List.cons_append, List.cons_append] at hpq
      injection hpq with ha hrest
      subst ha
      rw [bal_cons]
      have hcb : charBal '(' = 1 := by simp [charBal]
      rw [hcb]
      rcases List.append_eq_append_iff.mp hrest.symm with ⟨w, hpw, hl2⟩ | ⟨w, hl1, hq2⟩
      · have := hpre p' w hpw
        omega
      · cases w with
        | nil =>
          rw [List.append_nil] at hl1
          rw [hl1, hbal]
          omega
        | cons b bs =>
          have hb : b = ')' ∧ bs = [] := by
            cases bs with
            | nil => injection hq2 with hx _; exact ⟨hx.symm, rfl⟩
            | cons e es => simp at hq2
          obtain ⟨rfl, rfl⟩ := hb
          rw [hl1, bal_append, hbal, bal_singleton]
          simp [charBal]

theorem wf_ne_null (t : Node) (h : WellFormedB t = true) : t ≠ .null := by
  intro h0
  rw [h0] at h
  simp [WellFormedB] at h

theorem NoAtomV_parts (v : List Char) (l r : Node) (x : Option (List Char))
    (h : NoAtomVB (.mk v l r x) = true) :
    NoAtomVB l = true ∧ NoAtomVB r = true ∧ (l = .null ∧ r = .null → v ≠ ['v']) := by
  simp only [NoAtomVB, Bool.and_eq_true] at h
  refine ⟨h.1.2, h.2, fun hlf => ?_⟩
  have := h.1.1
  rw [if_pos hlf] at this
  exact of_decide_eq_true this

theorem wf_nav_cases (v : List Char) (l r : Node) (x : Option (List Char))
    (hwf : WellFormedB (.mk v l r x) = true)
    (hnav : NoAtomVB (.mk v l r x) = true) :
    (∃ c, v = [c] ∧ isLowerAZ c = true ∧ c ≠ 'v' ∧ l = .null ∧ r = .null ∧ x = none) ∨
    ((v = ['A'] ∨ v = ['E']) ∧ (∃ c, x = some [c] ∧ isLowerAZ c = true) ∧ l = .null ∧
      WellFormedB r = true) ∨
    (v = ['-'] ∧ x = none ∧ l = .null ∧ WellFormedB r = true) ∨
    ((v = ['&'] ∨ v = ['-','>'] ∨ v = ['<','-','>'] ∨ v = ['v']) ∧ x = none ∧
      WellFormedB l = true ∧ WellFormedB r = true) := by
  obtain ⟨_, _, hleaf⟩ := NoAtomV_parts v l r x hnav
  simp only [WellFormedB] at hwf
  split_ifs at hwf with h1 h2 h3 h4
  · refine Or.inr (Or.inl ⟨h1, ?_, ?_, ?_⟩)
    · simp only [Bool.and_eq_true] at hwf
      have hx := hwf.1.1
      cases x with
      | none => simp at hx
      | some s =>
        cases s with
        | nil => simp at hx
        | cons c cs =>
          cases cs with
          | nil => exact ⟨c, rfl, hx⟩
          | cons d ds => simp at hx
    · simp only [Bool.and_eq_true] at hwf
      exact of_decide_eq_true hwf.1.2
    · simp only [Bool.and_eq_true] at hwf
      exact hwf.2
  · simp only [Bool.and_eq_true] at hwf
    rcases h2 with hv | hv | hv
    · exact Or.inr (Or.inr (Or.inr ⟨Or.inl hv, of_decide_eq_true hwf.1.1, hwf.1.2, hwf.2⟩))
    · exact Or.inr (Or.inr (Or.inr ⟨Or.inr (Or.inl hv), of_decide_eq_true hwf.1.1,
        hwf.1.2, hwf.2⟩))
    · exact Or.inr (Or.inr (Or.inr ⟨Or.inr (Or.inr (Or.inl hv)), of_decide_eq_true hwf.1.1,
        hwf.1.2, hwf.2⟩))
  · simp only [Bool.and_eq_true, Bool.or_eq_true] at hwf
    rcases hwf.2 with ⟨hl, hr⟩ | ⟨hl, hr⟩
    · exact absurd h3 (hleaf ⟨of_decide_eq_true hl, of_decide_eq_true hr⟩)
    · exact Or.inr (Or.inr (Or.inr ⟨Or.inr (Or.inr (Or.inr h3)), of_decide_eq_true hwf.1,
        hl, hr⟩))
  · simp only [Bool.and_eq_true] at hwf
    exact Or.inr (Or.inr (Or.inl ⟨h4, of_decide_eq_true hwf.1.1, of_decide_eq_true hwf.1.2,
      hwf.2⟩))
  · simp only [Bool.and_eq_true] at hwf
    refine Or.inl ?_
    have hv := hwf.2
    cases v with
    | nil => simp at hv
    | cons c cs =>
      cases cs with
      | nil =>
        refine ⟨c, rfl, hv, ?_, of_decide_eq_true hwf.1.1.2, of_decide_eq_true hwf.1.2,
          of_decide_eq_true hwf.1.1.1⟩
        intro hc
        subst hc
        exact h3 rfl
      | cons d ds => simp at hv

theorem render_atom (v : List Char) (x : Option (List Char)) :
    ast_to_string (.mk v .null .null x) = v := by
  simp [ast_to_string]

theorem render_quant (Q xc : Char) (r : Node) (hQ : Q = 'A' ∨ Q = 'E') (hr : r ≠ .null) :
    ast_to_string (.mk [Q] .null r (some [xc])) =
      '(' :: ((Q :: xc :: ' ' :: ast_to_string r) ++ [')']) := by
  simp only [ast_to_string]
  rw [if_neg (fun hh => hr hh.2), if_pos (by
    rcases hQ with rfl | rfl
    · exact Or.inl rfl
    · exact Or.inr rfl)]
  simp

theorem render_neg (r : Node) (hr : r ≠ .null) :
    ast_to_string (.mk ['-'] .null r none) =
      '(' :: (('-' :: ' ' :: ast_to_string r) ++ [')']) := by
  simp only [ast_to_string]
  rw [if_neg (fun hh => hr hh.2), if_neg (by decide)]
  simp

theorem render_bin (v : List Char) (l r : Node)
    (hq : ¬(v = ['A'] ∨ v = ['E'])) (hm : v ≠ ['-']) (hnl : ¬(l = .null ∧ r = .null)) :
    ast_to_string (.mk v l r none) =
      '(' :: ((ast_to_string l ++ [' '] ++ v ++ [' '] ++ ast_to_string r) ++ [')']) := by
  simp only [ast_to_string]
  rw [if_neg hnl, if_neg hq, if_neg hm]
  simp

theorem render_shape : ∀ t : Node, WellFormedB t = true → NoAtomVB t = true →
    RenderShape (ast_to_string t) := by
  intro t
  induction t with
  | null => intro h _; simp [WellFormedB] at h
  | mk v l r x ihl ihr =>
    intro hwf hnav
    obtain ⟨hnl, hnr, _⟩ := NoAtomV_parts v l r x hnav
    rcases wf_nav_cases v l r x hwf hnav with
      ⟨c, rfl, hlc, hcv, rfl, rfl, rfl⟩ | ⟨hQ, ⟨xc, rfl, hxc⟩, rfl, hr⟩ |
      ⟨rfl, rfl, rfl, hr⟩ | ⟨hv, rfl, hl, hr⟩
    · rw [render_atom]
      exact Or.inl ⟨c, rfl, hlc, hcv⟩
    · have hshr := ihr hr hnr
      obtain ⟨Q, hvQ, hQe⟩ : ∃ Q, v = [Q] ∧ (Q = 'A' ∨ Q = 'E') := by
        rcases hQ with rfl | rfl
        · exact ⟨'A', rfl, Or.inl rfl⟩
        · exact ⟨'E', rfl, Or.inr rfl⟩
      subst hvQ
      have hQb : charBal Q = 0 := by rcases hQe with rfl | rfl <;> decide
      obtain ⟨hxa, _⟩ := isLowerAZ_bounds xc hxc
      obtain ⟨hxp, hxq, _⟩ := lower_ne_all xc hxa
      have hxb : charBal xc = 0 := charBal_zero xc hxp hxq
      have hsb : charBal ' ' = 0 := by decide
      rw [render_quant Q xc r hQe (wf_ne_null r hr)]
      refine Or.inr ⟨Q :: xc :: ' ' :: ast_to_string r, rfl, ?_, ?_⟩
      · rw [bal_cons, bal_cons, bal_cons, shape_bal _ hshr, hQb, hxb, hsb]
        ring
      · exact balPrefixOk_cons Q hQb _ (balPrefixOk_cons xc hxb _
          (balPrefixOk_cons ' ' hsb _ (shape_balPrefixOk _ hshr)))
    · have hshr := ihr hr hnr
      have hmb : charBal '-' = 0 := by decide
      have hsb : charBal ' ' = 0 := by decide
      rw [render_neg r (wf_ne_null r hr)]
      refine Or.inr ⟨'-' :: ' ' :: ast_to_string r, rfl, ?_, ?_⟩
      · rw [bal_cons, bal_cons, shape_bal _ hshr, hmb, hsb]
        ring
      · exact balPrefixOk_cons '-' hmb _ (balPrefixOk_cons ' ' hsb _
          (shape_balPrefixOk _ hshr))
    · have hshl := ihl hl hnl
      have hshr := ihr hr hnr
      have hvz : ∀ c ∈ v, charBal c = 0 := by
        rcases hv with rfl | rfl | rfl | rfl
        · intro c hc; simp at hc; subst hc; decide
        · intro c hc; simp at hc; rcases hc with rfl | rfl <;> decide
        · intro c hc; simp at hc; rcases hc with rfl | rfl | rfl <;> decide
        · intro c hc; simp at hc; subst hc; decide
      have hq2 : ¬(v = ['A'] ∨ v = ['E']) := by
        rcases hv with rfl | rfl | rfl | rfl <;> decide
      have hm2 : v ≠ ['-'] := by
        rcases hv with rfl | rfl | rfl | rfl <;> decide
      have hnl2 : ¬(l = .null ∧ r = .null) := fun hh => wf_ne_null l hl hh.1
      obtain ⟨hvb, hvp⟩ := zero_chars_bal v hvz
      have hsb : bal [' '] = 0 ∧ balPrefixOk [' '] :=
        zero_chars_bal [' '] (by intro c hc; simp at hc; subst hc; decide)
      rw [render_bin v l r hq2 hm2 hnl2]
      refine Or.inr ⟨ast_to_string l ++ [' '] ++ v ++ [' '] ++ ast_to_string r, rfl, ?_, ?_⟩
      · rw [List.append_assoc, List.append_assoc, List.append_assoc]
        rw [bal_append, bal_append, bal_append, bal_append]
        rw [shape_bal _ hshl, shape_bal _ hshr, hvb, hsb.1]
        ring
      · rw [List.append_assoc, List.append_assoc, List.append_assoc]
        refine balPrefixOk_append _ _ (shape_balPrefixOk _ hshl) (shape_bal _ hshl) ?_
        refine balPrefixOk_append _ _ hsb.2 hsb.1 ?_
        refine balPrefixOk_append _ _ hvp hvb ?_
        exact balPrefixOk_append _ _ hsb.2 hsb.1 (shape_balPrefixOk _ hshr)

theorem prefix_head_ne (h : Char) (tl : List Char) (c : Char) (z : List Char) (hne : h ≠ c) :
    (h :: tl).isPrefixOf (c :: z) = false := by
  simp [List.isPrefixOf, hne]

theorem find_singleton_none (op : List Char) (c : Char) (z : List Char)
    (h : op.isPrefixOf (c :: z) = false) :
    List.find? (fun o => o.isPrefixOf (c :: z)) [op] = none := by
  simp [List.find?, h]

theorem find_singleton_some (op : List Char) (c : Char) (z : List Char)
    (h : op.isPrefixOf (c :: z) = true) :
    List.find? (fun o => o.isPrefixOf (c :: z)) [op] = some op := by
  simp [List.find?, h]

theorem isPrefixOf_append_self (op z : List Char) : op.isPrefixOf (op ++ z) = true := by
  induction op with
  | nil => simp [List.isPrefixOf]
  | cons c cs ih => simp [List.isPrefixOf, ih]

theorem class_skip (s : List Char) (hs : RenderShape s) (op1 : List Char) (h0 : Char)
    (tl : List Char) (hop : op1 = h0 :: tl) (hh : h0 = '<' ∨ h0 = '-' ∨ h0 = 'v' ∨ h0 = '&') :
    ∀ (rest suffix : List Char) (lvl : Int), 0 ≤ lvl →
    rscan [op1] (s.reverse ++ rest) suffix lvl = rscan [op1] rest (s ++ suffix) lvl := by
  intro rest suffix lvl hl
  apply shape_skip s hs [op1] ?_ ?_ rest suffix lvl hl
  · intro z
    apply find_singleton_none
    rw [hop]
    apply prefix_head_ne
    rcases hh with rfl | rfl | rfl | rfl <;> decide
  · intro c hc z
    rcases hs with ⟨c0, hc0, hlc, hcv⟩ | ⟨mid, hmid, _, _⟩
    · rw [hc0] at hc
      injection hc with hcc _
      obtain ⟨ha, _⟩ := isLowerAZ_bounds c0 hlc
      obtain ⟨_, _, _, hm, hlt, _, hamp, _, _⟩ := lower_ne_all c0 ha
      apply find_singleton_none
      rw [hop]
      apply prefix_head_ne
      rw [← hcc]
      rcases hh with rfl | rfl | rfl | rfl
      · exact fun hx => hlt hx.symm
      · exact fun hx => hm hx.symm
      · exact fun hx => hcv hx.symm
      · exact fun hx => hamp hx.symm
    · rw [hmid] at hc
      rw [List.cons_append] at hc
      simp at hc

theorem class_none_inner (lS rS op op1 : List Char) (h0 : Char) (tl : List Char)
    (hl : RenderShape lS) (hr : RenderShape rS)
    (hop : op1 = h0 :: tl) (hh : h0 = '<' ∨ h0 = '-' ∨ h0 = 'v' ∨ h0 = '&')
    (hopz : ∀ c ∈ op, charBal c = 0)
    (hnohit : ∀ rp c rq, op.reverse = rp ++ c :: rq →
        op1.isPrefixOf (c :: (rp.reverse ++ (' ' :: rS))) = false) :
    rscan [op1] ((lS ++ [' '] ++ op ++ [' '] ++ rS).reverse) [] 0 = none := by
  have hsp : h0 ≠ ' ' := by rcases hh with rfl | rfl | rfl | rfl <;> decide
  have hrev : (lS ++ [' '] ++ op ++ [' '] ++ rS).reverse
      = rS.reverse ++ ([' '] ++ (op.reverse ++ ([' '] ++ lS.reverse))) := by
    simp
  rw [hrev]
  rw [class_skip rS hr op1 h0 tl hop hh _ [] 0 le_rfl]
  rw [List.append_nil, List.singleton_append]
  rw [rscan_skip_one [op1] ' ' _ rS 0 (Or.inr (find_singleton_none op1 ' ' rS (by
      rw [hop]; exact prefix_head_ne h0 tl ' ' rS hsp)))]
  have hcb : (0 : Int) - charBal ' ' = 0 := by decide
  rw [hcb]
  rw [rscan_skip [op1] op.reverse ([' '] ++ lS.reverse) (' ' :: rS) 0 (by
      intro rp c rq hsplit
      exact Or.inr (find_singleton_none op1 c _ (hnohit rp c rq hsplit)))]
  have hbop : bal op.reverse = 0 := by
    rw [bal_reverse]
    exact (zero_chars_bal op hopz).1
  rw [hbop, sub_zero, List.reverse_reverse, List.singleton_append]
  rw [rscan_skip_one [op1] ' ' _ _ 0 (Or.inr (find_singleton_none op1 ' ' _ (by
      rw [hop]; exact prefix_head_ne h0 tl ' ' _ hsp)))]
  rw [hcb]
  rw [show lS.reverse = lS.reverse ++ [] from (List.append_nil _).symm]
  rw [class_skip lS hl op1 h0 tl hop hh [] _ 0 le_rfl]
  rfl

theorem class_hit_inner (lS rS op : List Char) (h0 : Char) (tl : List Char)
    (hl : RenderShape lS) (hr : RenderShape rS)
    (hop : op = h0 :: tl) (hh : h0 = '<' ∨ h0 = '-' ∨ h0 = 'v' ∨ h0 = '&')
    (hopz : ∀ c ∈ op, charBal c = 0)
    (htl : ∀ rp c rq, tl.reverse = rp ++ c :: rq →
        op.isPrefixOf (c :: (rp.reverse ++ (' ' :: rS))) = false) :
    rscan [op] ((lS ++ [' '] ++ op ++ [' '] ++ rS).reverse) [] 0 =
      some (lS ++ [' '], op, ' ' :: rS) := by
  have hsp : h0 ≠ ' ' := by rcases hh with rfl | rfl | rfl | rfl <;> decide
  have hrev : (lS ++ [' '] ++ op ++ [' '] ++ rS).reverse
      = rS.reverse ++ ([' '] ++ (op.reverse ++ ([' '] ++ lS.reverse))) := by
    simp
  rw [hrev]
  rw [class_skip rS hr op h0 tl hop hh _ [] 0 le_rfl]
  rw [List.append_nil, List.singleton_append]
  rw [rscan_skip_one [op] ' ' _ rS 0 (Or.inr (find_singleton_none op ' ' rS (by
      rw [hop]; exact prefix_head_ne h0 tl ' ' rS hsp)))]
  have hcb : (0 : Int) - charBal ' ' = 0 := by decide
  rw [hcb]
  have hoprev : op.reverse = tl.reverse ++ [h0] := by rw [hop]; simp
  rw [hoprev, List.append_assoc]
  rw [rscan_skip [op] tl.reverse ([h0] ++ ([' '] ++ lS.reverse)) (' ' :: rS) 0 (by
      intro rp c rq hsplit
      exact Or.inr (find_singleton_none op c _ (htl rp c rq hsplit)))]
  have hbtl : bal tl.reverse = 0 := by
    rw [bal_reverse]
    refine (zero_chars_bal tl ?_).1
    intro c hc
    exact hopz c (by rw [hop]; exact List.mem_cons_of_mem h0 hc)
  rw [hbtl, sub_zero, List.reverse_reverse, List.singleton_append]
  have hfind : List.find? (fun o => o.isPrefixOf (h0 :: (tl ++ (' ' :: rS)))) [op] =
      some op := by
    apply find_singleton_some
    have : h0 :: (tl ++ (' ' :: rS)) = op ++ (' ' :: rS) := by rw [hop]; rfl
    rw [this]
    exact isPrefixOf_append_self op (' ' :: rS)
  have hch : (0 : Int) - charBal h0 = 0 := by
    have : charBal h0 = 0 := by rcases hh with rfl | rfl | rfl | rfl <;> decide
    rw [this, sub_zero]
  rw [rscan_hit [op] h0 ([' '] ++ lS.reverse) (tl ++ (' ' :: rS)) 0 op hch hfind]
  have hdrop : (h0 :: (tl ++ (' ' :: rS))).drop op.length = ' ' :: rS := by
    have h1 : h0 :: (tl ++ (' ' :: rS)) = op ++ (' ' :: rS) := by rw [hop]; rfl
    rw [h1, List.drop_left]
  rw [hdrop]
  have hrf : ([' '] ++ lS.reverse).reverse = lS ++ [' '] := by simp
  rw [hrf]

theorem split_singleton (a : Char) (rp : List Char) (c : Char) (rq : List Char)
    (h : [a] = rp ++ c :: rq) : rp = [] ∧ c = a ∧ rq = [] := by
  cases rp with
  | nil =>
    injection h with h1 h2
    exact ⟨rfl, h1.symm, h2.symm⟩
  | cons x xs =>
    rw [List.cons_append] at h
    injection h with h1 h2
    simp at h2

theorem split_pair (a b : Char) (rp : List Char) (c : Char) (rq : List Char)
    (h : [a, b] = rp ++ c :: rq) :
    (rp = [] ∧ c = a ∧ rq = [b]) ∨ (rp = [a] ∧ c = b ∧ rq = []) := by
  cases rp with
  | nil =>
    injection h with h1 h2
    exact Or.inl ⟨rfl, h1.symm, h2.symm⟩
  | cons x xs =>
    rw [List.cons_append] at h
    injection h with h1 h2
    subst h1
    obtain ⟨hxs, hcb, hrq⟩ := split_singleton b xs c rq h2
    exact Or.inr ⟨by rw [hxs], hcb, hrq⟩

theorem findTopOp_neg (rS : List Char) (hr : RenderShape rS) :
    findTopOp opClasses ('-' :: ' ' :: rS) = none := by
  have hgen : ∀ (op1 : List Char) (h0 : Char) (tl : List Char), op1 = h0 :: tl →
      (h0 = '<' ∨ h0 = '-' ∨ h0 = 'v' ∨ h0 = '&') →
      op1.isPrefixOf ('-' :: ' ' :: rS) = false →
      rscan [op1] (('-' :: ' ' :: rS).reverse) [] 0 = none := by
    intro op1 h0 tl hop hh hpre
    have hsp : h0 ≠ ' ' := by rcases hh with rfl | rfl | rfl | rfl <;> decide
    have hrev : ('-' :: ' ' :: rS).reverse = rS.reverse ++ (' ' :: ['-']) := by simp
    rw [hrev]
    rw [class_skip rS hr op1 h0 tl hop hh (' ' :: ['-']) [] 0 le_rfl]
    rw [List.append_nil]
    rw [rscan_skip_one [op1] ' ' ['-'] rS 0 (Or.inr (find_singleton_none op1 ' ' rS (by
        rw [hop]; exact prefix_head_ne h0 tl ' ' rS hsp)))]
    have hcb : (0 : Int) - charBal ' ' = 0 := by decide
    rw [hcb]
    rw [rscan_skip_one [op1] '-' [] (' ' :: rS) 0
      (Or.inr (find_singleton_none op1 '-' (' ' :: rS) hpre))]
    rfl
  have h1 := hgen ['<','-','>'] '<' ['-','>'] rfl (Or.inl rfl) (by simp [List.isPrefixOf])
  have h2 := hgen ['-','>'] '-' ['>'] rfl (Or.inr (Or.inl rfl)) (by simp [List.isPrefixOf])
  have h3 := hgen ['v'] 'v' [] rfl (Or.inr (Or.inr (Or.inl rfl))) (by simp [List.isPrefixOf])
  have h4 := hgen ['&'] '&' [] rfl (Or.inr (Or.inr (Or.inr rfl))) (by simp [List.isPrefixOf])
  simp only [findTopOp, opClasses, h1, h2, h3, h4]

theorem findTopOp_amp (lS rS : List Char) (hl : RenderShape lS) (hr : RenderShape rS) :
    findTopOp opClasses (lS ++ [' '] ++ ['&'] ++ [' '] ++ rS) =
      some (lS ++ [' '], ['&'], ' ' :: rS) := by
  have hz : ∀ c ∈ (['&'] : List Char), charBal c = 0 := by
    intro c hc; simp at hc; subst hc; decide
  have hrev : (['&'] : List Char).reverse = ['&'] := rfl
  have h1 := class_none_inner lS rS ['&'] ['<','-','>'] '<' ['-','>'] hl hr rfl
    (Or.inl rfl) hz (by
      intro rp c rq hsplit
      rw [hrev] at hsplit
      obtain ⟨hrp, hc, _⟩ := split_singleton '&' rp c rq hsplit
      subst hc; subst hrp
      simp [List.isPrefixOf])
  have h2 := class_none_inner lS rS ['&'] ['-','>'] '-' ['>'] hl hr rfl
    (Or.inr (Or.inl rfl)) hz (by
      intro rp c rq hsplit
      rw [hrev] at hsplit
      obtain ⟨hrp, hc, _⟩ := split_singleton '&' rp c rq hsplit
      subst hc; subst hrp
      simp [List.isPrefixOf])
  have h3 := class_none_inner lS rS ['&'] ['v'] 'v' [] hl hr rfl
    (Or.inr (Or.inr (Or.inl rfl))) hz (by
      intro rp c rq hsplit
      rw [hrev] at hsplit
      obtain ⟨hrp, hc, _⟩ := split_singleton '&' rp c rq hsplit
      subst hc; subst hrp
      simp [List.isPrefixOf])
  have h4 := class_hit_inner lS rS ['&'] '&' [] hl hr rfl (Or.inr (Or.inr (Or.inr rfl)))
    hz (by intro rp c rq hsplit; simp at hsplit)
  simp only [findTopOp, opClasses, h1, h2, h3, h4]

theorem findTopOp_or (lS rS : List Char) (hl : RenderShape lS) (hr : RenderShape rS) :
    findTopOp opClasses (lS ++ [' '] ++ ['v'] ++ [' '] ++ rS) =
      some (lS ++ [' '], ['v'], ' ' :: rS) := by
  have hz : ∀ c ∈ (['v'] : List Char), charBal c = 0 := by
    intro c hc; simp at hc; subst hc; decide
  have hrev : (['v'] : List Char).reverse = ['v'] := rfl
  have h1 := class_none_inner lS rS ['v'] ['<','-','>'] '<' ['-','>'] hl hr rfl
    (Or.inl rfl) hz (by
      intro rp c rq hsplit
      rw [hrev] at hsplit
      obtain ⟨hrp, hc, _⟩ := split_singleton 'v' rp c rq hsplit
      subst hc; subst hrp
      simp [List.isPrefixOf])
  have h2 := class_none_inner lS rS ['v'] ['-','>'] '-' ['>'] hl hr rfl
    (Or.inr (Or.inl rfl)) hz (by
      intro rp c rq hsplit
      rw [hrev] at hsplit
      obtain ⟨hrp, hc, _⟩ := split_singleton 'v' rp c rq hsplit
      subst hc; subst hrp
      simp [List.isPrefixOf])
  have h3 := class_hit_inner lS rS ['v'] 'v' [] hl hr rfl (Or.inr (Or.inr (Or.inl rfl)))
    hz (by intro rp c rq hsplit; simp at hsplit)
  simp only [findTopOp, opClasses, h1, h2, h3]

theorem findTopOp_imp (lS rS : List Char) (hl : RenderShape lS) (hr : RenderShape rS) :
    findTopOp opClasses (lS ++ [' '] ++ ['-','>'] ++ [' '] ++ rS) =
      some (lS ++ [' '], ['-','>'], ' ' :: rS) := by
  have hz : ∀ c ∈ (['-','>'] : List Char), charBal c = 0 := by
    intro c hc; simp at hc; rcases hc with rfl | rfl <;> decide
  have hrev : (['-','>'] : List Char).reverse = ['>','-'] := rfl
  have h1 := class_none_inner lS rS ['-','>'] ['<','-','>'] '<' ['-','>'] hl hr rfl
    (Or.inl rfl) hz (by
      intro rp c rq hsplit
      rw [hrev] at hsplit
      rcases split_pair '>' '-' rp c rq hsplit with ⟨hrp, hc, _⟩ | ⟨hrp, hc, _⟩ <;>
        (subst hc; subst hrp; simp [List.isPrefixOf]))
  have h2 := class_hit_inner lS rS ['-','>'] '-' ['>'] hl hr rfl (Or.inr (Or.inl rfl))
    hz (by
      intro rp c rq hsplit
      have hrev2 : (['>'] : List Char).reverse = ['>'] := rfl
      rw [hrev2] at hsplit
      obtain ⟨hrp, hc, _⟩ := split_singleton '>' rp c rq hsplit
      subst hc; subst hrp
      simp [List.isPrefixOf])
  simp only [findTopOp, opClasses, h1, h2]

theorem findTopOp_iff (lS rS : List Char) (hl : RenderShape lS) (hr : RenderShape rS) :
    findTopOp opClasses (lS ++ [' '] ++ ['<','-','>'] ++ [' '] ++ rS) =
      some (lS ++ [' '], ['<','-','>'], ' ' :: rS) := by
  have hz : ∀ c ∈ (['<','-','>'] : List Char), charBal c = 0 := by
    intro c hc; simp at hc; rcases hc with rfl | rfl | rfl <;> decide
  have h1 := class_hit_inner lS rS ['<','-','>'] '<' ['-','>'] hl hr rfl (Or.inl rfl)
    hz (by
      intro rp c rq hsplit
      have hrev2 : (['-','>'] : List Char).reverse = ['>','-'] := rfl
      rw [hrev2] at hsplit
      rcases split_pair '>' '-' rp c rq hsplit with ⟨hrp, hc, _⟩ | ⟨hrp, hc, _⟩ <;>
        (subst hc; subst hrp; simp [List.isPrefixOf]))
  simp only [findTopOp, opClasses, h1]

theorem shape_head_last (s : List Char) (hs : RenderShape s) :
    (∀ c, s.head? = some c → isPySpace c = false) ∧
    (∀ c, s.getLast? = some c → isPySpace c = false) := by
  rcases hs with ⟨c0, rfl, hlc, _⟩ | ⟨mid, rfl, _, _⟩
  · obtain ⟨ha, _⟩ := isLowerAZ_bounds c0 hlc
    have hsp := singleChar_notSpace c0 ha
    constructor
    · intro c hc
      simp at hc
      subst hc
      exact hsp
    · intro c hc
      simp at hc
      subst hc
      exact hsp
  · constructor
    · intro c hc
      rw [List.cons_append, List.head?_cons] at hc
      injection hc with hc
      subst hc
      decide
    · intro c hc
      rw [List.getLast?_concat] at hc
      injection hc with hc
      subst hc
      decide

theorem shape_trim (s : List Char) (hs : RenderShape s) : trim s = s :=
  trim_eq_self s (shape_head_last s hs).1 (shape_head_last s hs).2

theorem shape_dropWhile (s : List Char) (hs : RenderShape s) :
    s.dropWhile isPySpace = s := by
  cases hsc : s with
  | nil => rfl
  | cons a as =>
    rw [List.dropWhile_cons_of_neg]
    rw [Bool.not_eq_true]
    exact (shape_head_last s hs).1 a (by rw [hsc]; rfl)

theorem matchQuant_head_ne (c0 : Char) (l : List Char) (h1 : c0 ≠ 'A') (h2 : c0 ≠ 'E') :
    matchQuant (c0 :: l) = none := by
  cases l with
  | nil => rfl
  | cons c1 rest =>
    simp only [matchQuant]
    rw [if_neg]
    rintro ⟨hq, _⟩
    rcases hq with h | h
    · exact h1 h
    · exact h2 h

theorem matchQuant_quant (Q xc : Char) (body : List Char) (hQ : Q = 'A' ∨ Q = 'E')
    (hxc : 'a' ≤ xc ∧ xc ≤ 'z') (hbody : RenderShape body) :
    matchQuant (Q :: xc :: ' ' :: body) = some (Q, xc, body) := by
  have hdw : (' ' :: body).dropWhile isPySpace = body := by
    rw [List.dropWhile_cons_of_pos (by decide)]
    exact shape_dropWhile body hbody
  simp only [matchQuant]
  rw [if_pos]
  · rw [hdw]
  · refine ⟨hQ, hxc, ?_, ?_⟩
    · rw [List.takeWhile_cons_of_pos (by decide)]
      simp
    · rw [hdw]
      exact shape_ne_nil body hbody

theorem parse_single_letter (f : Nat) (c : Char) (h1 : 'a' ≤ c) (h2 : c ≤ 'z')
    (h3 : c ≠ 'v') : parseF (f + 1) [c] = .ok (.mk [c] .null .null none) := by
  have hne : ∀ d : Char, ¬ ('a' ≤ d) → c ≠ d := fun d hd hc => hd (hc ▸ h1)
  have hsp : isPySpace c = false := singleChar_notSpace c h1
  have htrim : trim [c] = [c] := trim_single c hsp
  have hlp : c ≠ '(' := hne '(' (by decide)
  have hmq : matchQuant [c] = none := rfl
  have hft : findTopOp opClasses [c] = none := findTopOp_single c h1 h3
  rw [parseF_succ]
  simp only [parseStep, htrim, hmq, hft]
  rw [if_neg (by intro hh; exact hlp (by simpa using hh.1))]
  rw [if_neg (by simp)]
  rw [if_pos ⟨h1, h2⟩]
  rfl

theorem head?_append_left (l1 l2 : List Char) (h : l1 ≠ []) :
    (l1 ++ l2).head? = l1.head? := by
  cases l1 with
  | nil => exact absurd rfl h
  | cons a as => rw [List.cons_append]; rfl

theorem getLast?_append_right (l1 l2 : List Char) (c : Char) (h : l2.getLast? = some c) :
    (l1 ++ l2).getLast? = some c := by
  rw [List.getLast?_append, h]
  rfl

theorem shape_scan (mid : List Char) (hbal : bal mid = 0) (hpre : balPrefixOk mid) :
    parenScan mid 0 = true := by
  rw [parenScan_iff mid 0 le_rfl]
  constructor
  · intro p q h
    rw [zero_add]
    exact hpre p q h
  · rw [zero_add]
    exact hbal

theorem wrapped_scan (M : List Char) (h : RenderShape ('(' :: (M ++ [')']))) :
    parenScan M 0 = true := by
  rcases h with ⟨c, hc, _, _⟩ | ⟨mid, hmid, hbal, hpre⟩
  · injection hc with _ h2
    exact absurd h2 (by simp)
  · rw [List.cons_append] at hmid
    injection hmid with _ h2
    obtain ⟨hM, _⟩ := List.append_inj' h2 (by simp)
    rw [hM]
    exact shape_scan mid hbal hpre

theorem parseF_strip (f : Nat) (mid : List Char) (hscan : parenScan mid 0 = true) :
    parseF (f + 1) ('(' :: (mid ++ [')'])) = parseF f mid := by
  rw [parseF_succ]
  have htrim : trim ('(' :: (mid ++ [')'])) = '(' :: (mid ++ [')']) := by
    apply trim_eq_self
    · intro c hc
      rw [List.head?_cons] at hc
      injection hc with hc
      subst hc
      decide
    · intro c hc
      rw [← List.cons_append, List.getLast?_concat] at hc
      injection hc with hc
      subst hc
      decide
  simp only [parseStep, htrim]
  have hhead : ('(' :: (mid ++ [')'])).head? = some '(' := rfl
  have hlast : ('(' :: (mid ++ [')'])).getLast? = some ')' := by
    rw [← List.cons_append, List.getLast?_concat]
  have hinner : ((('(' :: (mid ++ [')'])).drop 1).dropLast) = mid := by
    show ((mid ++ [')']).dropLast) = mid
    exact List.dropLast_concat
  rw [if_pos ⟨hhead, hlast, by rw [hinner]; exact hscan⟩, hinner]

theorem quant_mid_trim (Q xc : Char) (rS : List Char) (hQ : Q = 'A' ∨ Q = 'E')
    (hr : RenderShape rS) : trim (Q :: xc :: ' ' :: rS) = Q :: xc :: ' ' :: rS := by
  apply trim_eq_self
  · intro c hc
    rw [List.head?_cons] at hc
    injection hc with hc
    subst hc
    rcases hQ with rfl | rfl <;> decide
  · intro c hc
    have hform : Q :: xc :: ' ' :: rS = [Q, xc, ' '] ++ rS := rfl
    rw [hform] at hc
    cases hrs : rS.getLast? with
    | none =>
      rw [List.getLast?_eq_none_iff] at hrs
      exact absurd hrs (shape_ne_nil rS hr)
    | some c1 =>
      rw [getLast?_append_right _ _ c1 hrs] at hc
      injection hc with hc
      exact hc ▸ (shape_head_last rS hr).2 c1 hrs

theorem neg_mid_trim (rS : List Char) (hr : RenderShape rS) :
    trim ('-' :: ' ' :: rS) = '-' :: ' ' :: rS := by
  apply trim_eq_self
  · intro c hc
    rw [List.head?_cons] at hc
    injection hc with hc
    subst hc
    decide
  · intro c hc
    have hform : '-' :: ' ' :: rS = ['-', ' '] ++ rS := rfl
    rw [hform] at hc
    cases hrs : rS.getLast? with
    | none =>
      rw [List.getLast?_eq_none_iff] at hrs
      exact absurd hrs (shape_ne_nil rS hr)
    | some c1 =>
      rw [getLast?_append_right _ _ c1 hrs] at hc
      injection hc with hc
      exact hc ▸ (shape_head_last rS hr).2 c1 hrs

theorem bin_mid_trim (lS rS op : List Char) (hl : RenderShape lS) (hr : RenderShape rS) :
    trim (lS ++ [' '] ++ op ++ [' '] ++ rS) = lS ++ [' '] ++ op ++ [' '] ++ rS := by
  apply trim_eq_self
  · intro c hc
    have hre0 : lS ++ [' '] ++ op ++ [' '] ++ rS = lS ++ ([' '] ++ op ++ [' '] ++ rS) := by
      simp
    rw [hre0, head?_append_left _ _ (shape_ne_nil lS hl)] at hc
    exact (shape_head_last lS hl).1 c hc
  · intro c hc
    cases hrs : rS.getLast? with
    | none =>
      rw [List.getLast?_eq_none_iff] at hrs
      exact absurd hrs (shape_ne_nil rS hr)
    | some c1 =>
      have hre : lS ++ [' '] ++ op ++ [' '] ++ rS = (lS ++ [' '] ++ op ++ [' ']) ++ rS := by
        simp
      rw [hre, getLast?_append_right _ _ c1 hrs] at hc
      injection hc with hc
      exact hc ▸ (shape_head_last rS hr).2 c1 hrs

theorem bin_mid_matchQuant (lS rS op : List Char) (hl : RenderShape lS) :
    matchQuant (lS ++ [' '] ++ op ++ [' '] ++ rS) = none := by
  rcases hl with ⟨c0, hc0, hlc, _⟩ | ⟨midl, hmidl, _, _⟩
  · rw [hc0, List.singleton_append]
    obtain ⟨ha, _⟩ := isLowerAZ_bounds c0 hlc
    have hne : ∀ d : Char, ¬ ('a' ≤ d) → c0 ≠ d := fun d hd hc => hd (hc ▸ ha)
    exact matchQuant_head_ne c0 _ (hne 'A' (by decide)) (hne 'E' (by decide))
  · rw [hmidl]
    have hn : (('(' :: midl ++ [')']) ++ [' '] ++ op ++ [' '] ++ rS) =
        '(' :: (midl ++ [')'] ++ [' '] ++ op ++ [' '] ++ rS) := by simp
    rw [hn]
    exact matchQuant_head_ne '(' _ (by decide) (by decide)

theorem bin_mid_no_wrapper (lS rS op : List Char) (hl : RenderShape lS)
    (hr : RenderShape rS) :
    ¬((lS ++ [' '] ++ op ++ [' '] ++ rS).head? = some '(' ∧
      (lS ++ [' '] ++ op ++ [' '] ++ rS).getLast? = some ')' ∧
      parenScan ((((lS ++ [' '] ++ op ++ [' '] ++ rS).drop 1).dropLast)) 0 = true) := by
  rintro ⟨h1, h2, h3⟩
  rcases hl with ⟨c0, hc0, hlc, _⟩ | ⟨midl, hmidl, hball, hprel⟩
  · rw [hc0] at h1
    have hh0 : [c0] ++ [' '] ++ op ++ [' '] ++ rS = c0 :: ([' '] ++ op ++ [' '] ++ rS) := by
      simp
    rw [hh0, List.head?_cons] at h1
    injection h1 with h1
    obtain ⟨ha, _⟩ := isLowerAZ_bounds c0 hlc
    obtain ⟨hlp, _⟩ := lower_ne_all c0 ha
    exact hlp h1
  · rcases hr with ⟨c1, hc1, hlc1, _⟩ | ⟨midr, hmidr, hbalr, hprer⟩
    · rw [hc1] at h2
      have hre : lS ++ [' '] ++ op ++ [' '] ++ [c1] = (lS ++ [' '] ++ op ++ [' ']) ++ [c1] := by
        simp
      rw [hre, List.getLast?_concat] at h2
      injection h2 with h2
      obtain ⟨ha1, _⟩ := isLowerAZ_bounds c1 hlc1
      obtain ⟨_, hrp1, _⟩ := lower_ne_all c1 ha1
      exact hrp1 h2
    · rw [hmidl, hmidr] at h3
      have hM0 : ('(' :: midl ++ [')']) ++ [' '] ++ op ++ [' '] ++ ('(' :: midr ++ [')']) =
          '(' :: (((midl ++ [')'] ++ [' '] ++ op ++ [' ']) ++ ('(' :: midr)) ++ [')']) := by
        simp
      rw [hM0] at h3
      simp only [List.drop_succ_cons, List.drop_zero] at h3
      rw [List.dropLast_concat] at h3
      have hiff := (parenScan_iff _ 0 le_rfl).mp h3
      have hsplit2 : (midl ++ [')'] ++ [' '] ++ op ++ [' ']) ++ ('(' :: midr) =
          (midl ++ [')']) ++ ([' '] ++ op ++ [' '] ++ ('(' :: midr)) := by
        simp
      have hneg := hiff.1 (midl ++ [')']) _ hsplit2
      rw [zero_add, bal_append, hball, bal_singleton] at hneg
      have hcb : charBal ')' = -1 := by decide
      rw [hcb] at hneg
      omega

theorem roundtripF : ∀ t : Node, WellFormedB t = true → NoAtomVB t = true →
    ∀ fuel : Nat, (ast_to_string t).length + 1 ≤ fuel →
    parseF fuel (ast_to_string t) = .ok t := by
  intro t
  induction t with
  | null => intro h _ _ _; simp [WellFormedB] at h
  | mk v l r x ihl ihr =>
    intro hwf hnav fuel hfuel
    obtain ⟨hnavl, hnavr, _⟩ := NoAtomV_parts v l r x hnav
    have hshT := render_shape (.mk v l r x) hwf hnav
    rcases wf_nav_cases v l r x hwf hnav with
      ⟨c, rfl, hlc, hcv, rfl, rfl, rfl⟩ | ⟨hQ, ⟨xc, rfl, hxc⟩, rfl, hr⟩ |
      ⟨rfl, rfl, rfl, hr⟩ | ⟨hv, rfl, hl, hr⟩
    · rw [render_atom] at hfuel ⊢
      obtain ⟨ha, hz⟩ := isLowerAZ_bounds c hlc
      cases fuel with
      | zero => simp at hfuel
      | succ f => exact parse_single_letter f c ha hz hcv
    · obtain ⟨Q, hvQ, hQe⟩ : ∃ Q, v = [Q] ∧ (Q = 'A' ∨ Q = 'E') := by
        rcases hQ with rfl | rfl
        · exact ⟨'A', rfl, Or.inl rfl⟩
        · exact ⟨'E', rfl, Or.inr rfl⟩
      subst hvQ
      have hshr : RenderShape (ast_to_string r) := render_shape r hr hnavr
      rw [render_quant Q xc r hQe (wf_ne_null r hr)] at hfuel hshT ⊢
      have hscan := wrapped_scan _ hshT
      have hlen : ('(' :: ((Q :: xc :: ' ' :: ast_to_string r) ++ [')'])).length =
          (ast_to_string r).length + 5 := by simp
      rw [hlen] at hfuel
      cases fuel with
      | zero => omega
      | succ f =>
        rw [parseF_strip f _ hscan]
        cases f with
        | zero => omega
        | succ f2 =>
          rw [parseF_succ]
          have htrimM := quant_mid_trim Q xc (ast_to_string r) hQe hshr
          simp only [parseStep, htrimM]
          rw [if_neg (by
            rintro ⟨h1, -, -⟩
            rw [List.head?_cons] at h1
            injection h1 with h1
            rcases hQe with rfl | rfl <;> exact absurd h1 (by decide))]
          rw [matchQuant_quant Q xc (ast_to_string r) hQe (isLowerAZ_bounds xc hxc) hshr]
          show (do
              let b ← parseF f2 (ast_to_string r)
              pure (Node.mk [Q] Node.null b (some [xc]))) =
            Except.ok (Node.mk [Q] Node.null r (some [xc]))
          rw [ihr hr hnavr f2 (by omega)]
          rfl
    · have hshr : RenderShape (ast_to_string r) := render_shape r hr hnavr
      rw [render_neg r (wf_ne_null r hr)] at hfuel hshT ⊢
      have hscan := wrapped_scan _ hshT
      have hlen : ('(' :: (('-' :: ' ' :: ast_to_string r) ++ [')'])).length =
          (ast_to_string r).length + 4 := by simp
      rw [hlen] at hfuel
      cases fuel with
      | zero => omega
      | succ f =>
        rw [parseF_strip f _ hscan]
        cases f with
        | zero => omega
        | succ f2 =>
          rw [parseF_succ]
          have htrimM := neg_mid_trim (ast_to_string r) hshr
          simp only [parseStep, htrimM]
          rw [if_neg (by
            rintro ⟨h1, -, -⟩
            rw [List.head?_cons] at h1
            injection h1 with h1
            exact absurd h1 (by decide))]
          rw [matchQuant_head_ne '-' _ (by decide) (by decide)]
          rw [findTopOp_neg (ast_to_string r) hshr]
          rw [if_pos (show List.take 2 ('-' :: ' ' :: ast_to_string r) = ['-', ' '] from rfl)]
          show (do
              let b ← parseF f2 (ast_to_string r)
              pure (Node.mk ['-'] Node.null b none)) =
            Except.ok (Node.mk ['-'] Node.null r none)
          rw [ihr hr hnavr f2 (by omega)]
          rfl
    · have hshl : RenderShape (ast_to_string l) := render_shape l hl hnavl
      have hshr : RenderShape (ast_to_string r) := render_shape r hr hnavr
      have hq2 : ¬(v = ['A'] ∨ v = ['E']) := by rcases hv with rfl | rfl | rfl | rfl <;> decide
      have hm2 : v ≠ ['-'] := by rcases hv with rfl | rfl | rfl | rfl <;> decide
      have hnl2 : ¬(l = .null ∧ r = .null) := fun hh => wf_ne_null l hl hh.1
      rw [render_bin v l r hq2 hm2 hnl2] at hfuel hshT ⊢
      have hscan := wrapped_scan _ hshT
      have hlpos : 1 ≤ (ast_to_string l).length :=
        List.length_pos.mpr (shape_ne_nil _ hshl)
      have hrpos : 1 ≤ (ast_to_string r).length :=
        List.length_pos.mpr (shape_ne_nil _ hshr)
      have hvpos : 1 ≤ v.length := by rcases hv with rfl | rfl | rfl | rfl <;> decide
      have hlen : ('(' :: ((ast_to_string l ++ [' '] ++ v ++ [' '] ++ ast_to_string r)
          ++ [')'])).length =
          (ast_to_string l).length + v.length + (ast_to_string r).length + 4 := by
        simp
        omega
      rw [hlen] at hfuel
      cases fuel with
      | zero => omega
      | succ f =>
        rw [parseF_strip f _ hscan]
        cases f with
        | zero => omega
        | succ f2 =>
          rw [parseF_succ]
          have htrimM := bin_mid_trim (ast_to_string l) (ast_to_string r) v hshl hshr
          simp only [parseStep, htrimM]
          rw [if_neg (bin_mid_no_wrapper _ _ v hshl hshr)]
          rw [bin_mid_matchQuant _ _ v hshl]
          have hL : parseF f2 (ast_to_string l ++ [' ']) = .ok l := by
            rw [parseF_trim_congr f2 (ast_to_string l ++ [' ']) (ast_to_string l)
              (trim_concat_space _)]
            exact ihl hl hnavl f2 (by omega)
          have hR : parseF f2 (' ' :: ast_to_string r) = .ok r := by
            rw [parseF_trim_congr f2 (' ' :: ast_to_string r) (ast_to_string r)
              (trim_cons_space _)]
            exact ihr hr hnavr f2 (by omega)
          rcases hv with rfl | rfl | rfl | rfl
          · rw [findTopOp_amp _ _ hshl hshr]
            show (do
                let la ← parseF f2 (ast_to_string l ++ [' '])
                let ra ← parseF f2 (' ' :: ast_to_string r)
                pure (Node.mk ['&'] la ra none)) = Except.ok (Node.mk ['&'] l r none)
            rw [hL, hR]
            rfl
          · rw [findTopOp_imp _ _ hshl hshr]
            show (do
                let la ← parseF f2 (ast_to_string l ++ [' '])
                let ra ← parseF f2 (' ' :: ast_to_string r)
                pure (Node.mk ['-','>'] la ra none)) =
              Except.ok (Node.mk ['-','>'] l r none)
            rw [hL, hR]
            rfl
          · rw [findTopOp_iff _ _ hshl hshr]
            show (do
                let la ← parseF f2 (ast_to_string l ++ [' '])
                let ra ← parseF f2 (' ' :: ast_to_string r)
                pure (Node.mk ['<','-','>'] la ra none)) =
              Except.ok (Node.mk ['<','-','>'] l r none)
            rw [hL, hR]
            rfl
          · rw [findTopOp_or _ _ hshl hshr]
            show (do
                let la ← parseF f2 (ast_to_string l ++ [' '])
                let ra ← parseF f2 (' ' :: ast_to_string r)
                pure (Node.mk ['v'] la ra none)) = Except.ok (Node.mk ['v'] l r none)
            rw [hL, hR]
            rfl

/-- C5 (amended): parsing the rendered string returns the original tree for
every well-formed tree with no atom named `v`; the atom `v` itself breaks the
round trip (see the counterexample), because its rendering collides with the
disjunction operator. -/
theorem C5_roundtrip_no_atom_v (t : Node) (hwf : WellFormedB t = true)
    (hnav : NoAtomVB t = true) :
    build_ast_from_expression (ast_to_string t) = .ok t :=
  roundtripF t hwf hnav ((ast_to_string t).length + 1) le_rfl

/-- Witness for C5 at the well-formed input `(Ax (p -> q))`. -/
theorem C5_witness :
    WellFormedB (quantN 'A' 'x' (binN ['-','>'] (atomN 'p') (atomN 'q'))) = true ∧
    NoAtomVB (quantN 'A' 'x' (binN ['-','>'] (atomN 'p') (atomN 'q'))) = true ∧
    build_ast_from_expression (ast_to_string (quantN 'A' 'x'
      (binN ['-','>'] (atomN 'p') (atomN 'q')))) =
      .ok (quantN 'A' 'x' (binN ['-','>'] (atomN 'p') (atomN 'q'))) :=
  ⟨by decide, by decide, C5_roundtrip_no_atom_v _ (by decide) (by decide)⟩
